import Mathlib

/-!
Verification of the `quick` package config codec (wg-quick-op).

Go strings are modelled as lists of characters (`Str`), machine integers as
`Int`/`Nat` with explicit wraparound where Go arithmetic can overflow, and
fallible operations as `Option`/`Except`.  External collaborators (the Go
standard library's net parsing, the wgctrl key parser, the file system and
the regexp engine) are modelled as small partial functions or passed as
parameters, as documented on each definition.
-/

/-- Go strings, modelled as lists of characters. -/
abbrev Str := List Char

/-- The ASCII whitespace recognised by strings.TrimSpace. -/
def isSpaceChar (c : Char) : Bool :=
  c = ' ' || c = '\t' || c = '\n' || c = '\x0b' || c = '\x0c' || c = '\r'

/-- Left half of strings.TrimSpace: drop leading whitespace. -/
def trimLeftSp (s : Str) : Str := s.dropWhile isSpaceChar

/-- Right half of strings.TrimSpace: drop trailing whitespace. -/
def trimRightSp (s : Str) : Str := (s.reverse.dropWhile isSpaceChar).reverse

/-- strings.TrimSpace: drop whitespace from both ends. -/
def trimSpace (s : Str) : Str := trimLeftSp (trimRightSp s)

/-- strings.Split with a one-character separator; always returns at least one part. -/
def splitChar (sep : Char) : Str → List Str
  | [] => [[]]
  | c :: rest =>
    if c = sep then [] :: splitChar sep rest
    else
      match splitChar sep rest with
      | [] => [[c]]
      | p :: ps => (c :: p) :: ps

/-- strings.Join with a one-character separator. -/
def joinChar (sep : Char) : List Str → Str
  | [] => []
  | [p] => p
  | p :: ps => p ++ sep :: joinChar sep ps

/-- strings.Join with a string separator (used by the template's list join). -/
def joinStrSep (sep : Str) : List Str → Str
  | [] => []
  | [p] => p
  | p :: ps => p ++ sep ++ joinStrSep sep ps

/-- Concatenation of rendered fragments (template range loops). -/
def concatMapStr (f : α → Str) : List α → Str
  | [] => []
  | x :: xs => f x ++ concatMapStr f xs

/-! ## Base64 (encoding/base64, StdEncoding) -/

/-- The standard base64 alphabet. -/
def b64Alphabet : Str :=
  "ABCDEFGHIJKLMNOPQRSTUVWXYZabcdefghijklmnopqrstuvwxyz0123456789+/".data

/-- Character for a 6-bit value. -/
def b64Char (n : Nat) : Char := b64Alphabet.getD n 'A'

/-- 6-bit value of an alphabet character, none for characters outside the alphabet. -/
def b64Index (c : Char) : Option Nat := b64Alphabet.indexOf? c

/-- base64.StdEncoding.DecodeString on newline-free input: 4-character quanta,
'=' padding allowed only at the end. -/
def base64DecodeGroups : Str → Option (List Nat)
  | [] => some []
  | c1 :: c2 :: c3 :: c4 :: rest => do
    let i1 ← b64Index c1
    let i2 ← b64Index c2
    if c3 = '=' then
      if c4 = '=' ∧ rest = [] then some [i1 * 4 + i2 / 16] else none
    else do
      let i3 ← b64Index c3
      if c4 = '=' then
        if rest = [] then some [i1 * 4 + i2 / 16, i2 % 16 * 16 + i3 / 4] else none
      else do
        let i4 ← b64Index c4
        let tl ← base64DecodeGroups rest
        some ((i1 * 4 + i2 / 16) :: (i2 % 16 * 16 + i3 / 4) :: (i3 % 4 * 64 + i4) :: tl)
  | _ => none

/-- base64.StdEncoding.DecodeString. -/
def base64Decode (s : Str) : Option (List Nat) := base64DecodeGroups s

/-- base64.StdEncoding.EncodeToString on a byte list. -/
def base64Encode : List Nat → Str
  | [] => []
  | [b1] => [b64Char (b1 / 4), b64Char (b1 % 4 * 16), '=', '=']
  | [b1, b2] => [b64Char (b1 / 4), b64Char (b1 % 4 * 16 + b2 / 16), b64Char (b2 % 16 * 4), '=']
  | b1 :: b2 :: b3 :: rest =>
    b64Char (b1 / 4) :: b64Char (b1 % 4 * 16 + b2 / 16) :: b64Char (b2 % 16 * 4 + b3 / 64) ::
      b64Char (b3 % 64) :: base64Encode rest

/-! ## Keys (wgtypes.Key is a 32-byte array) -/

/-- wgtypes.Key, modelled as the list of its 32 bytes. -/
structure WgKey where
  bytes : List Nat
deriving DecidableEq, Repr

/-- The zero key (a fresh wgtypes.Key array). -/
def zeroKey : WgKey := ⟨List.replicate 32 0⟩

/-- Go copy(pkey[:], slice): fill min(32, len) bytes into a zeroed 32-byte array,
silently truncating or zero-padding. -/
def keyFromSlice (bs : List Nat) : WgKey :=
  ⟨bs.take 32 ++ List.replicate (32 - bs.length) 0⟩

/-- ParseKey (config.go): base64-decode and copy into the fixed array; note the
absence of any length validation. -/
def ParseKey (key : Str) : Except Str WgKey :=
  match base64Decode key with
  | none => .error ("illegal base64 data".data)
  | some bs => .ok (keyFromSlice bs)

/-- serializeKey: base64.StdEncoding.EncodeToString(key[:]).  The nil-pointer case
is handled at the template call site (Config.marshalText). -/
def serializeKey (key : WgKey) : Str := base64Encode key.bytes

/-- Modelled from the spec: wgtypes.ParseKey of the external wgctrl library
(used by GetUnresolvedEndpoints), which rejects keys whose decoded length is
not exactly 32 bytes. -/
def wgtypesParseKey (s : Str) : Except Str WgKey :=
  match base64Decode s with
  | none => .error ("illegal base64 data".data)
  | some bs => if bs.length = 32 then .ok ⟨bs⟩ else .error ("wgtypes: incorrect key size".data)

/-! ## Numbers -/

/-- The decimal digit characters. -/
def digitChar (n : Nat) : Char := ("0123456789".data).getD n '0'

/-- Value of a decimal digit character. -/
def digitVal (c : Char) : Option Nat :=
  if '0' ≤ c ∧ c ≤ '9' then some (c.toNat - 48) else none

/-- Accumulating decimal parse; none on any non-digit. -/
def digitsToNat (acc : Nat) : Str → Option Nat
  | [] => some acc
  | c :: rest =>
    match digitVal c with
    | none => none
    | some d => digitsToNat (acc * 10 + d) rest

/-- Decimal digits of a natural number, most significant first. -/
def natToChars (n : Nat) : Str :=
  if n < 10 then [digitChar n]
  else natToChars (n / 10) ++ [digitChar (n % 10)]
termination_by n
decreasing_by exact Nat.div_lt_self (by omega) (by omega)

/-- fmt rendering of a Go int64. -/
def intToChars (i : Int) : Str :=
  if i < 0 then '-' :: natToChars i.natAbs else natToChars i.natAbs

/-- Sign-stripped body of strconv.ParseInt. -/
def parseIntDigits (neg : Bool) (ds : Str) : Option Int :=
  match ds with
  | [] => none
  | _ =>
    match digitsToNat 0 ds with
    | none => none
    | some n =>
      if neg then if n ≤ 2 ^ 63 then some (-(n : Int)) else none
      else if n ≤ 2 ^ 63 - 1 then some ((n : Int)) else none

/-- strconv.ParseInt(s, 10, 64): optional sign, nonempty digit run, int64 range. -/
def parseInt64 (s : Str) : Option Int :=
  match s with
  | '+' :: rest => parseIntDigits false rest
  | '-' :: rest => parseIntDigits true rest
  | rest => parseIntDigits false rest

/-- strconv.ParseBool. -/
def parseBool (s : Str) : Option Bool :=
  if s = "1".data ∨ s = "t".data ∨ s = "T".data ∨ s = "true".data ∨ s = "TRUE".data ∨
      s = "True".data then some true
  else if s = "0".data ∨ s = "f".data ∨ s = "F".data ∨ s = "false".data ∨ s = "FALSE".data ∨
      s = "False".data then some false
  else none

/-- int64 two's-complement wraparound (for the keepalive multiplication). -/
def wrap64 (i : Int) : Int := (i + 2 ^ 63) % 2 ^ 64 - 2 ^ 63

/-! ## IP addresses (net package, external collaborator) -/

/-- An IPv4 address. -/
structure IPv4 where
  o1 : Nat
  o2 : Nat
  o3 : Nat
  o4 : Nat
deriving DecidableEq, Repr

/-- One dotted-quad octet: nonempty digits, no leading zero, value at most 255. -/
def parseOctet (s : Str) : Option Nat :=
  match s with
  | [] => none
  | c :: rest =>
    match digitsToNat 0 s with
    | none => none
    | some n =>
      if rest ≠ [] ∧ c = '0' then none
      else if n ≤ 255 then some n else none

/-- Modelled from the spec: net.ParseIP of the Go standard library (external
collaborator), modelled on the dotted-quad IPv4 fragment the claims exercise. -/
def parseIPv4 (s : Str) : Option IPv4 :=
  match splitChar '.' s with
  | [a, b, c, d] => do
    let x1 ← parseOctet a
    let x2 ← parseOctet b
    let x3 ← parseOctet c
    let x4 ← parseOctet d
    some ⟨x1, x2, x3, x4⟩
  | _ => none

/-- net.IP.String for an IPv4 address. -/
def ipv4Str (ip : IPv4) : Str :=
  natToChars ip.o1 ++ '.' :: natToChars ip.o2 ++ '.' :: natToChars ip.o3 ++ '.' :: natToChars ip.o4

/-- The value the decoder stores per CIDR: the unmasked IP plus the prefix length
(net.IPNet{IP: ip, Mask: cidr.Mask}). -/
structure IPNet where
  ip : IPv4
  maskOnes : Nat
deriving DecidableEq, Repr

/-- Modelled from the spec: net.ParseCIDR (external collaborator) on IPv4:
"a.b.c.d/ones" with the prefix length at most 32. -/
def parseCIDR (s : Str) : Option IPNet :=
  match splitChar '/' s with
  | [ipPart, maskPart] => do
    let ip ← parseIPv4 ipPart
    match maskPart with
    | [] => none
    | _ => do
      let m ← digitsToNat 0 maskPart
      if m ≤ 32 then some ⟨ip, m⟩ else none
  | _ => none

/-- net.IPNet.String for the stored (unmasked-IP, ones) pair. -/
def ipNetStr (n : IPNet) : Str := ipv4Str n.ip ++ '/' :: natToChars n.maskOnes

/-- A UDP address with a literal IPv4 host. -/
structure UDPAddr where
  ip : IPv4
  port : Nat
deriving DecidableEq, Repr

/-- Modelled from the spec: net.ResolveUDPAddr (external collaborator) on a
literal "a.b.c.d:port"; hostname resolution is an external effect outside the
model, so only numeric hosts are modelled. -/
def resolveUDPAddr (s : Str) : Option UDPAddr :=
  match splitChar ':' s with
  | [hostPart, portPart] => do
    let ip ← parseIPv4 hostPart
    match portPart with
    | [] => none
    | _ => do
      let p ← digitsToNat 0 portPart
      if p ≤ 65535 then some ⟨ip, p⟩ else none
  | _ => none

/-- net.UDPAddr.String for an IPv4 host. -/
def udpAddrStr (a : UDPAddr) : Str := ipv4Str a.ip ++ ':' :: natToChars a.port

/-! ## The data model -/

/-- wgtypes.PeerConfig, restricted to the fields this package reads or writes.
Durations are int64 nanosecond counts. -/
structure PeerConfig where
  publicKey : WgKey := zeroKey
  presharedKey : Option WgKey := none
  allowedIPs : List IPNet := []
  endpoint : Option UDPAddr := none
  persistentKeepaliveInterval : Option Int := none
deriving DecidableEq, Repr

/-- The Config struct (embedding the used wgtypes.Config fields). -/
structure Config where
  privateKey : Option WgKey := none
  listenPort : Option Int := none
  peers : List PeerConfig := []
  address : List IPNet := []
  dns : List IPv4 := []
  mtu : Int := 0
  table : Option Int := none
  preUp : List Str := []
  postUp : List Str := []
  preDown : List Str := []
  postDown : List Str := []
  routeProtocol : Int := 0
  routeMetric : Int := 0
  addressLabel : Str := []
  saveConfig : Bool := false
  wgBin : Str := []
deriving DecidableEq, Repr

/-- newConfig(): the zero Config except that Table points at a fresh zero int. -/
def newConfig : Config := { table := some 0 }

/-! ## Field grammars (parseInterfaceLine, parsePeerLine) -/

/-- parseInterfaceLine: dispatch an Interface-section directive. -/
def parseInterfaceLine (cfg : Config) (lhs rhs : Str) : Except Str Config :=
  if lhs = "Address".data then
    (splitChar ',' rhs).foldlM (fun c addr =>
      match parseCIDR (trimSpace addr) with
      | none => .error ("invalid CIDR address".data)
      | some n => .ok { c with address := c.address ++ [n] }) cfg
  else if lhs = "DNS".data then
    (splitChar ',' rhs).foldlM (fun c addr =>
      match parseIPv4 (trimSpace addr) with
      | none => .error ("cannot parse IP".data)
      | some ip => .ok { c with dns := c.dns ++ [ip] }) cfg
  else if lhs = "MTU".data then
    match parseInt64 rhs with
    | none => .error ("invalid syntax".data)
    | some mtu => .ok { cfg with mtu := mtu }
  else if lhs = "Table".data then
    if rhs.map Char.toLower = "off".data then .ok { cfg with table := none }
    else
      match parseInt64 rhs with
      | none => .error ("invalid syntax".data)
      | some tbl => .ok { cfg with table := some tbl }
  else if lhs = "ListenPort".data then
    match parseInt64 rhs with
    | none => .error ("invalid syntax".data)
    | some port => .ok { cfg with listenPort := some port }
  else if lhs = "PreUp".data then .ok { cfg with preUp := cfg.preUp ++ [rhs] }
  else if lhs = "PostUp".data then .ok { cfg with postUp := cfg.postUp ++ [rhs] }
  else if lhs = "PreDown".data then .ok { cfg with preDown := cfg.preDown ++ [rhs] }
  else if lhs = "PostDown".data then .ok { cfg with postDown := cfg.postDown ++ [rhs] }
  else if lhs = "SaveConfig".data then
    match parseBool rhs with
    | none => .error ("invalid syntax".data)
    | some b => .ok { cfg with saveConfig := b }
  else if lhs = "PrivateKey".data then
    match ParseKey rhs with
    | .error e => .error (("cannot decode key ".data) ++ e)
    | .ok k => .ok { cfg with privateKey := some k }
  else if lhs = "WgBin".data then .ok { cfg with wgBin := rhs }
  else .error (("unknown directive ".data) ++ lhs)

/-- parsePeerLine: dispatch a Peer-section directive onto the active peer. -/
def parsePeerLine (peerCfg : PeerConfig) (lhs rhs : Str) : Except Str PeerConfig :=
  if lhs = "PublicKey".data then
    match ParseKey rhs with
    | .error e => .error (("cannot decode key ".data) ++ e)
    | .ok k => .ok { peerCfg with publicKey := k }
  else if lhs = "PresharedKey".data then
    match ParseKey rhs with
    | .error e => .error (("cannot decode key ".data) ++ e)
    | .ok k =>
      if peerCfg.presharedKey ≠ none then .error ("preshared key already defined".data)
      else .ok { peerCfg with presharedKey := some k }
  else if lhs = "AllowedIPs".data then
    (splitChar ',' rhs).foldlM (fun p addr =>
      match parseCIDR (trimSpace addr) with
      | none => .error (("cannot parse ".data) ++ addr)
      | some n => .ok { p with allowedIPs := p.allowedIPs ++ [n] }) peerCfg
  else if lhs = "Endpoint".data then
    match resolveUDPAddr rhs with
    | none => .error ("cannot resolve endpoint".data)
    | some a => .ok { peerCfg with endpoint := some a }
  else if lhs = "PersistentKeepalive".data then
    match parseInt64 rhs with
    | none => .error ("invalid syntax".data)
    | some t => .ok { peerCfg with persistentKeepaliveInterval := some (wrap64 (t * 1000000000)) }
  else .error (("unknown directive ".data) ++ lhs)

/-! ## The decoder (Config.UnmarshalText) -/

/-- The section state of the line scanner. -/
inductive ParseState where
  | unknown
  | inter
  | peer
deriving DecidableEq, Repr

/-- Decode errors, keeping the line number exactly as the source computes it:
missingEq carries the raw loop index `no`, the wrapped errors carry `no + 1`. -/
inductive DecodeErr where
  | missingEq (no : Nat)
  | lineErr (no : Nat) (msg : Str)
  | unknownState (no : Nat)
  | keyErr (msg : Str)
deriving DecidableEq, Repr

/-- The `key = value` split appearing verbatim in both UnmarshalText and
GetUnresolvedEndpoints: split on every '=', take the head as key, rejoin the
tail with '=', trim both sides; none when no '=' is present. -/
def splitKV (ln : Str) : Option (Str × Str) :=
  match splitChar '=' ln with
  | [] => none
  | [_] => none
  | p :: ps => some (trimSpace p, trimSpace (joinChar '=' ps))

/-- Apply a peer-line parse to the most recently appended peer (the Go code
mutates cfg.Peers[len-1] through the peerCfg pointer). -/
def updateLastPeer (cfg : Config) (f : PeerConfig → Except Str PeerConfig) : Except Str Config :=
  match cfg.peers.getLast? with
  | none => .error ("no active peer".data)
  | some p =>
    match f p with
    | .error e => .error e
    | .ok p2 => .ok { cfg with peers := cfg.peers.dropLast ++ [p2] }

/-- One iteration of the UnmarshalText loop body on (loop index, raw line). -/
def processLine (acc : ParseState × Config) (noLine : Nat × Str) :
    Except DecodeErr (ParseState × Config) :=
  let no := noLine.1
  let ln := trimSpace noLine.2
  if ln = [] ∨ ln.headD ' ' = '#' then .ok acc
  else if ln = "[Interface]".data then .ok (.inter, acc.2)
  else if ln = "[Peer]".data then .ok (.peer, { acc.2 with peers := acc.2.peers ++ [{}] })
  else
    match splitKV ln with
    | none => .error (.missingEq no)
    | some (lhs, rhs) =>
      match acc.1 with
      | .inter =>
        match parseInterfaceLine acc.2 lhs rhs with
        | .error e => .error (.lineErr (no + 1) e)
        | .ok c => .ok (.inter, c)
      | .peer =>
        match updateLastPeer acc.2 (fun p => parsePeerLine p lhs rhs) with
        | .error e => .error (.lineErr (no + 1) e)
        | .ok c => .ok (.peer, c)
      | .unknown => .error (.unknownState (no + 1))

/-- Lines paired with their 0-based loop indices, starting at i. -/
def enumF (i : Nat) : List Str → List (Nat × Str)
  | [] => []
  | l :: ls => (i, l) :: enumF (i + 1) ls

/-- The UnmarshalText loop. -/
def runLines (acc : ParseState × Config) : List (Nat × Str) → Except DecodeErr (ParseState × Config)
  | [] => .ok acc
  | nl :: rest =>
    match processLine acc nl with
    | .error e => .error e
    | .ok acc2 => runLines acc2 rest

/-- Config.UnmarshalText: reset to newConfig, then scan the '\n'-split lines. -/
def Config.unmarshalText (text : Str) : Except DecodeErr Config :=
  match runLines (.unknown, newConfig) (enumF 0 (splitChar '\n' text)) with
  | .error e => .error e
  | .ok acc => .ok acc.2

/-! ## The encoder (Config.MarshalText and the wgtypeTemplateSpec template) -/

/-- Go fmt rendering of a []string value, as the template prints PreUp and
friends: the elements space-joined inside brackets. -/
def goStringSliceStr (l : List Str) : Str :=
  '[' :: joinChar ' ' l ++ [']']

/-- toSeconds: int(duration / time.Second), Go truncating division. -/
def toSeconds (d : Int) : Int := Int.tdiv d 1000000000

/-- The rendering of one peer block by the template's range body. -/
def renderPeer (p : PeerConfig) : Str :=
  "\n\n[Peer]\nPublicKey = ".data ++ serializeKey p.publicKey ++
  "\nAllowedIPs = ".data ++ joinStrSep (", ".data) (p.allowedIPs.map ipNetStr) ++
  (match p.presharedKey with
    | none => []
    | some k => ("\nPresharedKey = ".data) ++ serializeKey k) ++
  (match p.persistentKeepaliveInterval with
    | none => []
    | some d => ("\nPersistentKeepalive = ".data) ++ intToChars (toSeconds d)) ++
  (match p.endpoint with
    | none => []
    | some a => ("\nEndpoint = ".data) ++ udpAddrStr a)

/-- The full template output for a config whose private key is pk.  Pointer
fields are truthy when non-nil (even pointing at zero); int, slice and bool
fields are truthy when non-zero / non-empty / true. -/
def renderConfig (cfg : Config) (pk : WgKey) : Str :=
  "[Interface]".data ++
  concatMapStr (fun a => ("\nAddress = ".data) ++ ipNetStr a) cfg.address ++
  concatMapStr (fun d => ("\nDNS = ".data) ++ ipv4Str d) cfg.dns ++
  "\nPrivateKey = ".data ++ serializeKey pk ++
  (match cfg.listenPort with
    | none => []
    | some p => ("\nListenPort = ".data) ++ intToChars p) ++
  (if cfg.mtu ≠ 0 then ("\nMTU = ".data) ++ intToChars cfg.mtu else []) ++
  (match cfg.table with
    | none => []
    | some t => ("\nTable = ".data) ++ intToChars t) ++
  (if cfg.preUp ≠ [] then ("\nPreUp = ".data) ++ goStringSliceStr cfg.preUp else []) ++
  (if cfg.postUp ≠ [] then ("\nPostUp = ".data) ++ goStringSliceStr cfg.postUp else []) ++
  (if cfg.preDown ≠ [] then ("\nPreDown = ".data) ++ goStringSliceStr cfg.preDown else []) ++
  (if cfg.postDown ≠ [] then ("\nPostDown = ".data) ++ goStringSliceStr cfg.postDown else []) ++
  (if cfg.saveConfig then ("\nSaveConfig = true".data) else []) ++
  concatMapStr renderPeer cfg.peers ++
  "\n".data

/-- Config.MarshalText: template execution.  A nil PrivateKey makes the wgKey
template function dereference a nil pointer; text/template recovers function
panics (safeCall) into an execution error, so Execute fails exactly then. -/
def Config.marshalText (cfg : Config) : Except Str Str :=
  match cfg.privateKey with
  | none =>
    .error ("error calling wgKey: runtime error: invalid memory address or nil pointer dereference".data)
  | some pk => .ok (renderConfig cfg pk)

/-! ## The endpoint extractor (GetUnresolvedEndpoints) -/

/-- Go map assignment m[k] = v on an association-list model. -/
def mapSet [DecidableEq κ] (m : List (κ × β)) (k : κ) (v : β) : List (κ × β) :=
  match m with
  | [] => [(k, v)]
  | (k0, v0) :: rest => if k0 = k then (k0, v) :: rest else (k0, v0) :: mapSet rest k v

/-- The extractor's scan state: section state, the two transient strings, and
the accumulated key-to-endpoint mapping. -/
structure ExtractSt where
  state : ParseState := .unknown
  endpoint : Str := []
  pubkey : Str := []
  endpoints : List (WgKey × Str) := []
deriving DecidableEq, Repr

/-- One iteration of the GetUnresolvedEndpoints loop body. -/
def extractLine (st : ExtractSt) (noLine : Nat × Str) : Except DecodeErr ExtractSt :=
  let no := noLine.1
  let ln := trimSpace noLine.2
  if ln = [] ∨ ln.headD ' ' = '#' then .ok st
  else if ln = "[Interface]".data then .ok { st with state := .inter }
  else if ln = "[Peer]".data then .ok { st with state := .peer, pubkey := [], endpoint := [] }
  else if st.state ≠ .peer then .ok st
  else
    match splitKV ln with
    | none => .error (.missingEq no)
    | some (lhs, rhs) =>
      let st1 :=
        if lhs = "PublicKey".data then { st with pubkey := rhs }
        else if lhs = "Endpoint".data then { st with endpoint := rhs }
        else st
      if st1.pubkey = [] ∨ st1.endpoint = [] then .ok st1
      else
        match wgtypesParseKey st1.pubkey with
        | .error e => .error (.keyErr e)
        | .ok key =>
          .ok { st1 with endpoints := mapSet st1.endpoints key st1.endpoint,
                         pubkey := [], endpoint := [] }

/-- The GetUnresolvedEndpoints loop. -/
def runExtract (st : ExtractSt) : List (Nat × Str) → Except DecodeErr ExtractSt
  | [] => .ok st
  | nl :: rest =>
    match extractLine st nl with
    | .error e => .error e
    | .ok st2 => runExtract st2 rest

/-- GetUnresolvedEndpoints on the file's text (reading
/etc/wireguard/name.conf is file-system glue outside the model). -/
def GetUnresolvedEndpoints (text : Str) : Except DecodeErr (List (WgKey × Str)) :=
  match runExtract {} (enumF 0 (splitChar '\n' text)) with
  | .error e => .error e
  | .ok st => .ok st.endpoints

/-! ## MatchConfig -/

/-- strings.LastIndex search, scanning candidate start positions downward from k. -/
def lastIndexFrom (s sub : Str) : Nat → Option Nat
  | 0 => if sub.isPrefixOf s then some 0 else none
  | k + 1 => if sub.isPrefixOf (s.drop (k + 1)) then some (k + 1) else lastIndexFrom s sub k

/-- strings.LastIndex: byte index of the last occurrence of sub in s, or -1. -/
def lastIndex (s sub : Str) : Int :=
  match lastIndexFrom s sub s.length with
  | none => -1
  | some i => (i : Int)

/-- The implicit anchoring MatchConfig applies to the caller's pattern. -/
def anchorPattern (pattern : Str) : Str :=
  let p1 := if ("^".data).isPrefixOf pattern then pattern else '^' :: pattern
  if ("$".data).isSuffixOf p1 then p1 else p1 ++ "$".data

/-- MatchConfig.  The /etc/wireguard listing and the regexp engine are external
collaborators, passed as the files and rmatch parameters; a none result models
the logrus Fatal (process-terminating) paths taken on a match or decode error. -/
def MatchConfig (rmatch : Str → Str → Option Bool) (files : List (Str × Str)) (pattern : Str) :
    Option (List (Str × Config)) :=
  let p := anchorPattern pattern
  files.foldlM (fun cfgs nameContent =>
    let name := nameContent.1
    if name.length < 6 ∨ lastIndex name (".conf".data) ≠ (name.length : Int) - 5 then some cfgs
    else
      match rmatch p (name.take (name.length - 5)) with
      | none => none
      | some false => some cfgs
      | some true =>
        match Config.unmarshalText nameContent.2 with
        | .error _ => none
        | .ok c => some (mapSet cfgs (name.take (name.length - 5)) c)) []

/-! ## Proof-side decompositions and validity predicates -/

/-- Fragments glued by the template: a newline before each line. -/
def nlConcat (ls : List Str) : Str := concatMapStr (fun l => '\n' :: l) ls

/-- Zero or one rendered line for an optional field. -/
def optLines (f : α → Str) : Option α → List Str
  | none => []
  | some x => [f x]

/-- The individually rendered field lines. -/
def addrLine (a : IPNet) : Str := ("Address = ".data) ++ ipNetStr a

def dnsLine (d : IPv4) : Str := ("DNS = ".data) ++ ipv4Str d

def privateKeyLine (k : WgKey) : Str := ("PrivateKey = ".data) ++ serializeKey k

def listenPortLine (p : Int) : Str := ("ListenPort = ".data) ++ intToChars p

def mtuLine (m : Int) : Str := ("MTU = ".data) ++ intToChars m

def tableLine (t : Int) : Str := ("Table = ".data) ++ intToChars t

def pubKeyLine (k : WgKey) : Str := ("PublicKey = ".data) ++ serializeKey k

def allowedLine (l : List IPNet) : Str :=
  ("AllowedIPs = ".data) ++ joinStrSep (", ".data) (l.map ipNetStr)

def presharedLine (k : WgKey) : Str := ("PresharedKey = ".data) ++ serializeKey k

def keepaliveLine (d : Int) : Str := ("PersistentKeepalive = ".data) ++ intToChars (toSeconds d)

def endpointLine (a : UDPAddr) : Str := ("Endpoint = ".data) ++ udpAddrStr a

/-- The lines a peer block renders to (the first entry is the blank line the
template emits before each [Peer] header). -/
def peerLines (p : PeerConfig) : List Str :=
  [[], "[Peer]".data, pubKeyLine p.publicKey, allowedLine p.allowedIPs] ++
  optLines presharedLine p.presharedKey ++
  optLines keepaliveLine p.persistentKeepaliveInterval ++
  optLines endpointLine p.endpoint

/-- All rendered lines after the [Interface] header. -/
def configRestLines (cfg : Config) (pk : WgKey) : List Str :=
  cfg.address.map addrLine ++
  cfg.dns.map dnsLine ++
  [privateKeyLine pk] ++
  optLines listenPortLine cfg.listenPort ++
  (if cfg.mtu ≠ 0 then [mtuLine cfg.mtu] else []) ++
  optLines tableLine cfg.table ++
  (if cfg.preUp ≠ [] then [("PreUp = ".data) ++ goStringSliceStr cfg.preUp] else []) ++
  (if cfg.postUp ≠ [] then [("PostUp = ".data) ++ goStringSliceStr cfg.postUp] else []) ++
  (if cfg.preDown ≠ [] then [("PreDown = ".data) ++ goStringSliceStr cfg.preDown] else []) ++
  (if cfg.postDown ≠ [] then [("PostDown = ".data) ++ goStringSliceStr cfg.postDown] else []) ++
  (if cfg.saveConfig then [("SaveConfig = true".data)] else []) ++
  (cfg.peers.map peerLines).flatten

/-- The Decode-after-Encode composite (an encode error is surfaced as a decode
error value so the two stages compose). -/
def decodeEncode (c : Config) : Except DecodeErr Config :=
  match Config.marshalText c with
  | .error e => .error (.keyErr e)
  | .ok t => Config.unmarshalText t

/-- A key whose byte list is exactly 32 bytes, each below 256. -/
def validKeyB (k : WgKey) : Bool :=
  k.bytes.length = 32 && k.bytes.all (fun b => b < 256)

def validIPv4B (ip : IPv4) : Bool :=
  ip.o1 ≤ 255 && ip.o2 ≤ 255 && ip.o3 ≤ 255 && ip.o4 ≤ 255

def validIPNetB (n : IPNet) : Bool := validIPv4B n.ip && n.maskOnes ≤ 32

def validUDPB (a : UDPAddr) : Bool := validIPv4B a.ip && a.port ≤ 65535

/-- Within the int64 range. -/
def int64Range (i : Int) : Bool := -(2 ^ 63) ≤ i && i ≤ 2 ^ 63 - 1

/-- A whole number of seconds, small enough that no int64 overflow occurs. -/
def validKeepB (d : Int) : Bool :=
  toSeconds d * 1000000000 = d && -(2 ^ 33) ≤ toSeconds d && toSeconds d ≤ 2 ^ 33

def validPeerB (p : PeerConfig) : Bool :=
  validKeyB p.publicKey &&
  (match p.presharedKey with
    | none => true
    | some k => validKeyB k) &&
  !p.allowedIPs.isEmpty && p.allowedIPs.all validIPNetB &&
  (match p.endpoint with
    | none => true
    | some a => validUDPB a) &&
  (match p.persistentKeepaliveInterval with
    | none => true
    | some d => validKeepB d)

/-- Configs inside the modelled round-trip fragment: private key present and
valid, table present, hook-script lists and externally-consumed fields empty,
IPv4 values, every peer with at least one allowed IP. -/
def validConfigB (c : Config) : Bool :=
  (match c.privateKey with
    | none => false
    | some k => validKeyB k) &&
  (match c.listenPort with
    | none => true
    | some p => int64Range p) &&
  c.address.all validIPNetB && c.dns.all validIPv4B && int64Range c.mtu &&
  (match c.table with
    | none => false
    | some t => int64Range t) &&
  c.preUp.isEmpty && c.postUp.isEmpty && c.preDown.isEmpty && c.postDown.isEmpty &&
  c.routeProtocol = 0 && c.routeMetric = 0 && c.addressLabel.isEmpty && c.wgBin.isEmpty &&
  c.peers.all validPeerB

/-! ## Concrete inputs used by the closed evaluation theorems -/

/-- A valid 44-character base64 spelling of the all-zero 32-byte key. -/
def zeroKeyB64 : Str := ("AAAAAAAAAAAAAAAAAAAAAAAAAAAAAAAAAAAAAAAAAAA=".data)

def tableOffText : Str :=
  ("[Interface]\nPrivateKey = AAAAAAAAAAAAAAAAAAAAAAAAAAAAAAAAAAAAAAAAAAA=\nTable = off".data)

def noTableText : Str :=
  ("[Interface]\nPrivateKey = AAAAAAAAAAAAAAAAAAAAAAAAAAAAAAAAAAAAAAAAAAA=".data)

def table42Text : Str :=
  ("[Interface]\nPrivateKey = AAAAAAAAAAAAAAAAAAAAAAAAAAAAAAAAAAAAAAAAAAA=\nTable = 42".data)

/-- The routing-table state a text decodes to, none when decoding fails. -/
def decodedTable (t : Str) : Option (Option Int) :=
  match Config.unmarshalText t with
  | .ok c => some c.table
  | .error _ => none

/-- The routing-table state after a full decode, encode, decode cycle. -/
def cycledTable (t : Str) : Option (Option Int) :=
  match Config.unmarshalText t with
  | .ok c =>
    match decodeEncode c with
    | .ok c2 => some c2.table
    | .error _ => none
  | .error _ => none

/-- Round-trip counterexample: a populated hook script list renders as a
bracketed Go slice and an unset table comes back as a zero pointer, while the
backend path (WgBin) is never rendered at all. -/
def rtCexA : Config :=
  { privateKey := some zeroKey
    preUp := [("echo hi".data)]
    wgBin := ("wg".data) }

/-- Round-trip counterexample: a peer with no allowed IPs encodes to an
`AllowedIPs = ` line whose empty value no longer decodes. -/
def rtCexB : Config :=
  { privateKey := some zeroKey
    peers := [{ publicKey := zeroKey }] }

/-- A config exercising every round-trip field for the witness. -/
def rtSample : Config :=
  { privateKey := some zeroKey
    listenPort := some 51820
    address := [⟨⟨10, 0, 0, 5⟩, 24⟩, ⟨⟨10, 1, 0, 1⟩, 16⟩]
    dns := [⟨1, 1, 1, 1⟩, ⟨9, 9, 9, 9⟩]
    mtu := 1420
    table := some 42
    saveConfig := true
    peers := [{ publicKey := zeroKey
                presharedKey := some zeroKey
                allowedIPs := [⟨⟨10, 0, 0, 0⟩, 8⟩, ⟨⟨192, 168, 1, 0⟩, 24⟩]
                endpoint := some ⟨⟨8, 8, 8, 8⟩, 51820⟩
                persistentKeepaliveInterval := some 25000000000 },
              { publicKey := zeroKey
                allowedIPs := [⟨⟨0, 0, 0, 0⟩, 0⟩] }] }

/-- The extractor scenario text of the claim: two peer blocks, only the first
with both a public key and an endpoint. -/
def extractScenarioText : Str :=
  ("[Peer]\nPublicKey = AAAAAAAAAAAAAAAAAAAAAAAAAAAAAAAAAAAAAAAAAAA=\nEndpoint = host1:51820\n\n[Peer]\nPublicKey = K2".data)

/-- Decidable equality on Except, for the closed evaluation theorems. -/
instance {ε α : Type} [DecidableEq ε] [DecidableEq α] : DecidableEq (Except ε α) := fun x y =>
  match x, y with
  | .error a, .error b =>
    if h : a = b then .isTrue (h ▸ rfl) else .isFalse (fun hc => h (Except.error.inj hc))
  | .ok a, .ok b =>
    if h : a = b then .isTrue (h ▸ rfl) else .isFalse (fun hc => h (Except.ok.inj hc))
  | .error a, .ok b => .isFalse (fun hc => Except.noConfusion hc)
  | .ok a, .error b => .isFalse (fun hc => Except.noConfusion hc)

/-- The MatchConfig fold step, named for the invariant proofs (identical to the
closure inside MatchConfig). -/
def matchStep (rmatch : Str → Str → Option Bool) (p : Str) (cfgs : List (Str × Config))
    (nameContent : Str × Str) : Option (List (Str × Config)) :=
  let name := nameContent.1
  if name.length < 6 ∨ lastIndex name (".conf".data) ≠ (name.length : Int) - 5 then some cfgs
  else
    match rmatch p (name.take (name.length - 5)) with
    | none => none
    | some false => some cfgs
    | some true =>
      match Config.unmarshalText nameContent.2 with
      | .error _ => none
      | .ok c => some (mapSet cfgs (name.take (name.length - 5)) c)

/-- A concrete regexp collaborator for the MatchConfig witness: matches exactly
the base names wg0 and wg1. -/
def rmEx (p s : Str) : Option Bool := some (s == ("wg0".data) || s == ("wg1".data))

/-- Concrete /etc/wireguard listing for the MatchConfig witness. -/
def c9Files : List (Str × Str) :=
  [(("wg0.conf".data), []), (("short".data), []), (("wg1.conf".data), [])]

/-- A concrete extractor state inside a peer block for the commit witness. -/
def st0 : ExtractSt := { state := .peer, pubkey := serializeKey zeroKey }

/-! ## General lemmas about the string primitives -/

theorem splitChar_ne_nil (sep : Char) (s : Str) : splitChar sep s ≠ [] := by
  cases s with
  | nil => simp [splitChar]
  | cons c rest =>
    simp only [splitChar]
    split
    · simp
    · split <;> simp

theorem splitChar_of_not_mem {sep : Char} {s : Str} (h : sep ∉ s) : splitChar sep s = [s] := by
  induction s with
  | nil => rfl
  | cons c rest ih =>
    simp only [List.mem_cons, not_or] at h
    have hc : ¬(c = sep) := fun hcc => h.1 hcc.symm
    simp only [splitChar, if_neg hc, ih h.2]

theorem splitChar_append_cons {sep : Char} {s : Str} (h : sep ∉ s) (t : Str) :
    splitChar sep (s ++ sep :: t) = s :: splitChar sep t := by
  induction s with
  | nil => simp [splitChar]
  | cons c rest ih =>
    simp only [List.mem_cons, not_or] at h
    have hc : ¬(c = sep) := fun hcc => h.1 hcc.symm
    rw [show (c :: rest) ++ sep :: t = c :: (rest ++ sep :: t) from rfl]
    simp only [splitChar, if_neg hc]
    rw [ih h.2]

theorem joinChar_cons_head (sep c : Char) (p : Str) (ps : List Str) :
    joinChar sep ((c :: p) :: ps) = c :: joinChar sep (p :: ps) := by
  cases ps <;> simp [joinChar]

theorem joinChar_splitChar (sep : Char) (s : Str) : joinChar sep (splitChar sep s) = s := by
  induction s with
  | nil => rfl
  | cons c rest ih =>
    simp only [splitChar]
    rcases hsp : splitChar sep rest with _ | ⟨p, ps⟩
    · exact absurd hsp (splitChar_ne_nil sep rest)
    · rw [hsp] at ih
      split
      · next hc =>
        subst hc
        cases ps <;> simp only [joinChar] at ih ⊢ <;> simp [ih]
      · rw [joinChar_cons_head, ih]

theorem dropWhile_append_of_ne_nil {p : Char → Bool} {l1 : Str} (h : l1.dropWhile p ≠ []) :
    ∀ l2, (l1 ++ l2).dropWhile p = l1.dropWhile p ++ l2 := by
  induction l1 with
  | nil => simp at h
  | cons c rest ih =>
    intro l2
    by_cases hc : p c
    · simp only [List.dropWhile_cons, hc, if_pos] at h ⊢
      simp only [List.cons_append, List.dropWhile_cons, hc, if_pos]
      exact ih h l2
    · simp [List.dropWhile_cons, hc]

theorem dropWhile_append_of_eq_nil {p : Char → Bool} {l1 : Str} (h : l1.dropWhile p = []) :
    ∀ l2, (l1 ++ l2).dropWhile p = l2.dropWhile p := by
  induction l1 with
  | nil => simp
  | cons c rest ih =>
    intro l2
    by_cases hc : p c
    · simp only [List.dropWhile_cons, hc, if_pos] at h
      simp only [List.cons_append, List.dropWhile_cons, hc, if_pos]
      exact ih h l2
    · simp [List.dropWhile_cons, hc] at h

theorem dropWhile_idem (p : Char → Bool) (l : Str) :
    (l.dropWhile p).dropWhile p = l.dropWhile p := by
  induction l with
  | nil => rfl
  | cons c rest ih =>
    by_cases hc : p c
    · simpa [List.dropWhile_cons, hc] using ih
    · simp [List.dropWhile_cons, hc]

theorem trimRightSp_eq_nil_iff {s : Str} : trimRightSp s = [] ↔ ∀ c ∈ s, isSpaceChar c := by
  simp [trimRightSp, List.dropWhile_eq_nil_iff]

theorem trimLeftSp_eq_nil_iff {s : Str} : trimLeftSp s = [] ↔ ∀ c ∈ s, isSpaceChar c := by
  simp [trimLeftSp, List.dropWhile_eq_nil_iff]

theorem trimRightSp_cons (c : Char) (s : Str) :
    trimRightSp (c :: s) =
      if trimRightSp s = [] then (if isSpaceChar c then [] else [c])
      else c :: trimRightSp s := by
  have hrw : (c :: s).reverse = s.reverse ++ [c] := by simp
  by_cases h : trimRightSp s = []
  · have hnil : s.reverse.dropWhile isSpaceChar = [] := by
      have := h
      simp only [trimRightSp] at this
      simpa using congrArg List.reverse this
    rw [if_pos h]
    simp only [trimRightSp, hrw, dropWhile_append_of_eq_nil hnil]
    by_cases hc : isSpaceChar c <;> simp [List.dropWhile_cons, hc]
  · have hnil : s.reverse.dropWhile isSpaceChar ≠ [] := by
      intro hx
      exact h (by simp [trimRightSp, hx])
    rw [if_neg h]
    simp [trimRightSp, hrw, dropWhile_append_of_ne_nil hnil]

theorem trimRightSp_idem (s : Str) : trimRightSp (trimRightSp s) = trimRightSp s := by
  simp [trimRightSp, dropWhile_idem]

theorem trimLeftSp_cons_of_space {c : Char} (h : isSpaceChar c) (s : Str) :
    trimLeftSp (c :: s) = trimLeftSp s := by
  simp [trimLeftSp, List.dropWhile_cons, h]

theorem trimLeftSp_cons_of_nonspace {c : Char} (h : ¬isSpaceChar c) (s : Str) :
    trimLeftSp (c :: s) = c :: s := by
  simp [trimLeftSp, List.dropWhile_cons, h]

theorem trimLeftSp_eq_self {s : Str} (h : ∀ c ∈ s.head?, ¬isSpaceChar c) :
    trimLeftSp s = s := by
  cases s with
  | nil => rfl
  | cons c rest => exact trimLeftSp_cons_of_nonspace (h c (by simp)) rest

theorem trimRightSp_eq_self {s : Str} (h : ∀ c ∈ s.getLast?, ¬isSpaceChar c) :
    trimRightSp s = s := by
  have hh : ∀ c ∈ s.reverse.head?, ¬isSpaceChar c := by
    intro c hc
    exact h c (by rwa [List.head?_reverse] at hc)
  have : s.reverse.dropWhile isSpaceChar = s.reverse := by
    cases hrev : s.reverse with
    | nil => rfl
    | cons c rest =>
      have := hh c (by rw [hrev]; simp)
      simp [List.dropWhile_cons, this]
  simp [trimRightSp, this]

theorem trimSpace_eq_self {s : Str} (hh : ∀ c ∈ s.head?, ¬isSpaceChar c)
    (hl : ∀ c ∈ s.getLast?, ¬isSpaceChar c) : trimSpace s = s := by
  rw [trimSpace, trimRightSp_eq_self hl, trimLeftSp_eq_self hh]

theorem trimSpace_eq_self_of_all {s : Str} (h : ∀ c ∈ s, ¬isSpaceChar c) : trimSpace s = s := by
  refine trimSpace_eq_self ?_ ?_
  · intro c hc
    exact h c (List.mem_of_mem_head? hc)
  · intro c hc
    have : c ∈ s.reverse := List.mem_of_mem_head? (by rwa [List.head?_reverse])
    exact h c (by simpa using this)

theorem trimSpace_nil : trimSpace [] = [] := rfl

theorem trimSpace_cons_space_front {c : Char} (h : isSpaceChar c) (s : Str) :
    trimSpace (c :: s) = trimSpace s := by
  rw [trimSpace, trimRightSp_cons]
  by_cases hnil : trimRightSp s = []
  · rw [if_pos hnil, if_pos h, trimSpace, hnil]
  · rw [if_neg hnil, trimSpace]
    exact trimLeftSp_cons_of_space h _

/-! ## The key = value line analysis -/

theorem isSpaceChar_space : isSpaceChar ' ' = true := by decide

theorem isSpaceChar_eqch : isSpaceChar '=' = false := by decide

theorem trimRightSp_kv (k0 v : Str) :
    trimRightSp (k0 ++ ' ' :: '=' :: ' ' :: v) =
      k0 ++ ' ' :: '=' :: (if trimRightSp v = [] then [] else ' ' :: trimRightSp v) := by
  have hrev : (k0 ++ ' ' :: '=' :: ' ' :: v).reverse
      = v.reverse ++ ' ' :: '=' :: ' ' :: k0.reverse := by simp
  by_cases h : trimRightSp v = []
  · have hnil : v.reverse.dropWhile isSpaceChar = [] := by
      have := congrArg List.reverse h
      simpa [trimRightSp] using this
    rw [if_pos h]
    simp only [trimRightSp, hrev, dropWhile_append_of_eq_nil hnil, List.dropWhile_cons,
      isSpaceChar_space, isSpaceChar_eqch, if_true, if_false, Bool.false_eq_true]
    simp
  · have hnil : v.reverse.dropWhile isSpaceChar ≠ [] := by
      intro hx
      exact h (by simp [trimRightSp, hx])
    rw [if_neg h]
    simp only [trimRightSp, hrev, dropWhile_append_of_ne_nil hnil]
    simp [trimRightSp]

theorem trimSpace_kv (k0 v : Str) (h1 : k0 ≠ []) (h2 : ∀ c ∈ k0.head?, ¬isSpaceChar c) :
    trimSpace (k0 ++ ' ' :: '=' :: ' ' :: v) =
      k0 ++ ' ' :: '=' :: (if trimRightSp v = [] then [] else ' ' :: trimRightSp v) := by
  rw [trimSpace, trimRightSp_kv]
  cases k0 with
  | nil => exact absurd rfl h1
  | cons c rest => exact trimLeftSp_cons_of_nonspace (h2 c (by simp)) _

theorem trimSpace_pad (v : Str) :
    trimSpace (if trimRightSp v = [] then [] else ' ' :: trimRightSp v) = trimSpace v := by
  by_cases h : trimRightSp v = []
  · rw [if_pos h, trimSpace_nil, trimSpace, h, trimLeftSp]
    rfl
  · rw [if_neg h, trimSpace_cons_space_front isSpaceChar_space, trimSpace, trimRightSp_idem,
      trimSpace]

theorem splitKV_kv (k0 v : Str) (h1 : k0 ≠ []) (h2 : ∀ c ∈ k0.head?, ¬isSpaceChar c)
    (h3 : ∀ c ∈ k0.getLast?, ¬isSpaceChar c) (h4 : '=' ∉ k0) :
    splitKV (trimSpace (k0 ++ ' ' :: '=' :: ' ' :: v)) = some (k0, trimSpace v) := by
  rw [trimSpace_kv k0 v h1 h2]
  have hsep : '=' ∉ k0 ++ [' '] := by
    intro hm
    rcases List.mem_append.1 hm with hm | hm
    · exact h4 hm
    · simp at hm
  have hsplit : splitChar '=' ((k0 ++ [' ']) ++ '=' ::
      (if trimRightSp v = [] then [] else ' ' :: trimRightSp v)) =
      (k0 ++ [' ']) :: splitChar '='
        (if trimRightSp v = [] then [] else ' ' :: trimRightSp v) :=
    splitChar_append_cons hsep _
  have hshape : k0 ++ ' ' :: '=' :: (if trimRightSp v = [] then [] else ' ' :: trimRightSp v)
      = (k0 ++ [' ']) ++ '=' :: (if trimRightSp v = [] then [] else ' ' :: trimRightSp v) := by
    simp
  rw [splitKV, hshape, hsplit]
  rcases hsp : splitChar '=' (if trimRightSp v = [] then [] else ' ' :: trimRightSp v)
    with _ | ⟨p2, ps2⟩
  · exact absurd hsp (splitChar_ne_nil _ _)
  · have hjoin : joinChar '=' (p2 :: ps2) =
        (if trimRightSp v = [] then [] else ' ' :: trimRightSp v) := by
      rw [← hsp, joinChar_splitChar]
    have htrimk : trimSpace (k0 ++ [' ']) = k0 := by
      have hrt : trimRightSp (k0 ++ [' ']) = k0 := by
        have hrev : (k0 ++ [' ']).reverse = ' ' :: k0.reverse := by simp
        have hk : k0.reverse.dropWhile isSpaceChar = k0.reverse := by
          cases hkr : k0.reverse with
          | nil => rfl
          | cons c rest =>
            have hcl : c ∈ k0.getLast? := by
              rw [← List.head?_reverse, hkr]
              simp
            simp [List.dropWhile_cons, h3 c hcl]
        simp [trimRightSp, hrev, List.dropWhile_cons, isSpaceChar_space, hk]
      rw [trimSpace, hrt]
      exact trimLeftSp_eq_self h2
    simp only [joinChar_cons_head]
    rw [hjoin, htrimk, trimSpace_pad]

theorem splitKV_none_of_not_mem {ln : Str} (h : '=' ∉ ln) : splitKV ln = none := by
  rw [splitKV, splitChar_of_not_mem h]

theorem kv_shape_ne_of_not_mem {a b : Str} (ha : '=' ∈ a) (hb : '=' ∉ b) : a ≠ b := by
  intro he
  exact hb (he ▸ ha)

/-- The decoder's loop body on a rendered `key = value` line dispatches to the
field grammar of the current section with the key and the trimmed value. -/
theorem processLine_kv (st : ParseState) (cfg : Config) (no : Nat) (k0 v : Str)
    (h1 : k0 ≠ []) (h2 : ∀ c ∈ k0.head?, ¬isSpaceChar c)
    (h3 : ∀ c ∈ k0.getLast?, ¬isSpaceChar c) (h4 : '=' ∉ k0)
    (h5 : ∀ c ∈ k0.head?, c ≠ '#') :
    processLine (st, cfg) (no, k0 ++ ' ' :: '=' :: ' ' :: v) =
      match st with
      | .unknown => .error (.unknownState (no + 1))
      | .inter =>
        match parseInterfaceLine cfg k0 (trimSpace v) with
        | .error e => .error (.lineErr (no + 1) e)
        | .ok c => .ok (.inter, c)
      | .peer =>
        match updateLastPeer cfg (fun p => parsePeerLine p k0 (trimSpace v)) with
        | .error e => .error (.lineErr (no + 1) e)
        | .ok c => .ok (.peer, c) := by
  have htr := trimSpace_kv k0 v h1 h2
  have hkv := splitKV_kv k0 v h1 h2 h3 h4
  rw [htr] at hkv
  obtain ⟨c0, k0', rfl⟩ : ∃ c0 k0', k0 = c0 :: k0' := by
    cases k0 with
    | nil => exact absurd rfl h1
    | cons a b => exact ⟨a, b, rfl⟩
  have hne : ¬((c0 :: k0') ++ ' ' :: '=' ::
      (if trimRightSp v = [] then [] else ' ' :: trimRightSp v) = []) := by simp
  have hhd : ¬(((c0 :: k0') ++ ' ' :: '=' ::
      (if trimRightSp v = [] then [] else ' ' :: trimRightSp v)).headD ' ' = '#') := by
    simpa using h5 c0 (by simp)
  have hmem : '=' ∈ (c0 :: k0') ++ ' ' :: '=' ::
      (if trimRightSp v = [] then [] else ' ' :: trimRightSp v) := by simp
  have hni : ¬((c0 :: k0') ++ ' ' :: '=' ::
      (if trimRightSp v = [] then [] else ' ' :: trimRightSp v) = "[Interface]".data) :=
    kv_shape_ne_of_not_mem hmem (by decide)
  have hnp : ¬((c0 :: k0') ++ ' ' :: '=' ::
      (if trimRightSp v = [] then [] else ' ' :: trimRightSp v) = "[Peer]".data) :=
    kv_shape_ne_of_not_mem hmem (by decide)
  simp only [processLine, htr, if_neg hhd, if_neg hni, if_neg hnp, hkv]
  have hor : ¬((c0 :: k0') ++ ' ' :: '=' ::
      (if trimRightSp v = [] then [] else ' ' :: trimRightSp v) = [] ∨
      ((c0 :: k0') ++ ' ' :: '=' ::
        (if trimRightSp v = [] then [] else ' ' :: trimRightSp v)).headD ' ' = '#') := by
    push_neg
    exact ⟨hne, hhd⟩
  rw [if_neg hor]
  cases st <;> rfl

/-! ## Decimal printing parses back -/

theorem digitsToNat_append (acc : Nat) (l1 l2 : Str) :
    digitsToNat acc (l1 ++ l2) =
      match digitsToNat acc l1 with
      | none => none
      | some m => digitsToNat m l2 := by
  induction l1 generalizing acc with
  | nil => simp [digitsToNat]
  | cons c rest ih =>
    simp only [List.cons_append, digitsToNat]
    cases digitVal c with
    | none => rfl
    | some d => exact ih _

theorem digitChar_val : ∀ m < 10, digitVal (digitChar m) = some m := by decide

theorem natToChars_ne_nil (n : Nat) : natToChars n ≠ [] := by
  rw [natToChars]
  split <;> simp

theorem digitsToNat_natToChars (acc n : Nat) :
    digitsToNat acc (natToChars n) = some (acc * 10 ^ (natToChars n).length + n) := by
  induction n using natToChars.induct generalizing acc with
  | case1 x hx =>
    rw [natToChars, if_pos hx]
    simp [digitsToNat, digitChar_val x hx]
  | case2 x hx ih =>
    rw [natToChars, if_neg hx]
    rw [digitsToNat_append, ih acc]
    have hd : digitVal (digitChar (x % 10)) = some (x % 10) :=
      digitChar_val (x % 10) (Nat.mod_lt x (by omega))
    simp only [digitsToNat, hd, List.length_append, List.length_cons, List.length_nil]
    congr 1
    have hp : 10 ^ ((natToChars (x / 10)).length + (0 + 1)) =
        10 ^ (natToChars (x / 10)).length * 10 := by ring
    rw [hp, ← Nat.mul_assoc]
    have := Nat.div_add_mod x 10
    set M := acc * 10 ^ (natToChars (x / 10)).length
    omega

theorem parseNat_roundtrip (n : Nat) : digitsToNat 0 (natToChars n) = some n := by
  simpa using digitsToNat_natToChars 0 n

theorem digitChar_ne_zero : ∀ m, 1 ≤ m → m < 10 → digitChar m ≠ '0' := by decide

theorem natToChars_head_ne_zero (n : Nat) (h : 1 ≤ n) :
    ∀ c ∈ (natToChars n).head?, c ≠ '0' := by
  induction n using natToChars.induct with
  | case1 x hx =>
    intro c hc
    rw [natToChars, if_pos hx] at hc
    simp at hc
    subst hc
    exact digitChar_ne_zero x h hx
  | case2 x hx ih =>
    intro c hc
    rw [natToChars, if_neg hx] at hc
    rcases hpre : natToChars (x / 10) with _ | ⟨p, ps⟩
    · exact absurd hpre (natToChars_ne_nil _)
    · rw [hpre] at hc
      simp at hc
      have := ih (by omega) c (by rw [hpre]; simpa using hc)
      exact this

theorem parseOctet_natToChars {n : Nat} (h : n ≤ 255) : parseOctet (natToChars n) = some n := by
  rcases hnc : natToChars n with _ | ⟨c, rest⟩
  · exact absurd hnc (natToChars_ne_nil n)
  · have hd : digitsToNat 0 (c :: rest) = some n := by
      rw [← hnc]
      exact parseNat_roundtrip n
    simp only [parseOctet, hd]
    by_cases hr : rest = []
    · subst hr
      simp [h]
    · have hge : ¬n < 10 := by
        intro hlt
        rw [natToChars, if_pos hlt] at hnc
        cases hnc
        exact hr rfl
      have hc0 : c ≠ '0' := by
        have := natToChars_head_ne_zero n (by omega)
        rw [hnc] at this
        exact this c (by simp)
      simp [hr, hc0, h]

theorem natToChars_mem_digits (n : Nat) : ∀ c ∈ natToChars n, c ∈ ("0123456789".data) := by
  induction n using natToChars.induct with
  | case1 x hx =>
    intro c hc
    rw [natToChars, if_pos hx] at hc
    simp at hc
    subst hc
    revert hx
    revert x
    decide
  | case2 x hx ih =>
    intro c hc
    rw [natToChars, if_neg hx] at hc
    rcases List.mem_append.1 hc with hc | hc
    · exact ih c hc
    · simp at hc
      subst hc
      have hlt : x % 10 < 10 := Nat.mod_lt x (by omega)
      revert hlt
      generalize x % 10 = m
      intro hlt
      revert hlt
      revert m
      decide

/-! ## Character classes of the rendered values -/

theorem mem_digits_facts : ∀ c ∈ ("0123456789".data),
    ¬isSpaceChar c ∧ c ≠ '.' ∧ c ≠ '/' ∧ c ≠ ':' ∧ c ≠ '=' ∧ c ≠ ',' ∧ c ≠ '#' ∧
      c ≠ '-' ∧ c ≠ '+' ∧ c ≠ '[' := by decide

theorem intToChars_mem (i : Int) : ∀ c ∈ intToChars i, c ∈ ("0123456789-".data) := by
  intro c hc
  rw [intToChars] at hc
  split at hc
  · rcases List.mem_cons.1 hc with hc | hc
    · subst hc
      decide
    · have := natToChars_mem_digits i.natAbs c hc
      simp only [List.mem_cons] at this ⊢
      tauto
  · have := natToChars_mem_digits i.natAbs c hc
    simp only [List.mem_cons] at this ⊢
    tauto

theorem mem_intchars_facts : ∀ c ∈ ("0123456789-".data),
    ¬isSpaceChar c ∧ c ≠ ',' ∧ c ≠ '=' ∧ c ≠ '#' ∧ c ≠ '[' := by decide

theorem ipv4Str_mem (ip : IPv4) : ∀ c ∈ ipv4Str ip, c ∈ ("0123456789.".data) := by
  intro c hc
  rw [ipv4Str] at hc
  simp only [List.mem_append, List.mem_cons] at hc
  have hdig : ∀ m : Nat, c ∈ natToChars m → c ∈ ("0123456789.".data) := by
    intro m hm
    have := natToChars_mem_digits m c hm
    simp only [List.mem_cons] at this ⊢
    tauto
  have hdot : c = '.' → c ∈ ("0123456789.".data) := by
    intro h
    subst h
    decide
  have h1 := hdig ip.o1
  have h2 := hdig ip.o2
  have h3 := hdig ip.o3
  have h4 := hdig ip.o4
  tauto

theorem ipNetStr_mem (n : IPNet) : ∀ c ∈ ipNetStr n, c ∈ ("0123456789./".data) := by
  intro c hc
  rw [ipNetStr] at hc
  simp only [List.mem_append, List.mem_cons] at hc
  have hip : c ∈ ipv4Str n.ip → c ∈ ("0123456789./".data) := by
    intro h
    have := ipv4Str_mem n.ip c h
    simp only [List.mem_cons] at this ⊢
    tauto
  have hdig : c ∈ natToChars n.maskOnes → c ∈ ("0123456789./".data) := by
    intro h
    have := natToChars_mem_digits _ c h
    simp only [List.mem_cons] at this ⊢
    tauto
  have hsl : c = '/' → c ∈ ("0123456789./".data) := by
    intro h
    subst h
    decide
  tauto

theorem udpAddrStr_mem (a : UDPAddr) : ∀ c ∈ udpAddrStr a, c ∈ ("0123456789.:".data) := by
  intro c hc
  rw [udpAddrStr] at hc
  simp only [List.mem_append, List.mem_cons] at hc
  have hip : c ∈ ipv4Str a.ip → c ∈ ("0123456789.:".data) := by
    intro h
    have := ipv4Str_mem a.ip c h
    simp only [List.mem_cons] at this ⊢
    tauto
  have hdig : c ∈ natToChars a.port → c ∈ ("0123456789.:".data) := by
    intro h
    have := natToChars_mem_digits _ c h
    simp only [List.mem_cons] at this ⊢
    tauto
  have hco : c = ':' → c ∈ ("0123456789.:".data) := by
    intro h
    subst h
    decide
  tauto

theorem mem_ipchars_facts : ∀ c ∈ ("0123456789./:".data),
    ¬isSpaceChar c ∧ c ≠ ',' ∧ c ≠ '=' ∧ c ≠ '#' ∧ c ≠ '[' := by decide

theorem b64Char_mem (m : Nat) : b64Char m ∈ b64Alphabet := by
  rw [b64Char]
  rcases h : b64Alphabet.get? m with _ | c
  · rw [List.getD_eq_getElem?_getD, List.get?_eq_getElem? ] at *
    rw [h]
    decide
  · have hm : c ∈ b64Alphabet := List.get?_mem h
    rw [List.getD_eq_getElem?_getD, ← List.get?_eq_getElem?, h]
    exact hm

theorem serializeKey_mem (k : WgKey) : ∀ c ∈ serializeKey k, c ∈ b64Alphabet ++ ("=".data) := by
  rw [serializeKey]
  generalize k.bytes = bs
  induction bs using base64Encode.induct with
  | case1 =>
    intro c hc
    simp [base64Encode] at hc
  | case2 b1 =>
    intro c hc
    simp only [base64Encode, List.mem_cons, List.mem_singleton] at hc
    rcases hc with h | h | h | h | h
    all_goals first
      | (subst h; exact List.mem_append.2 (Or.inl (b64Char_mem _)))
      | (subst h; decide)
      | cases h
  | case3 b1 b2 =>
    intro c hc
    simp only [base64Encode, List.mem_cons, List.mem_singleton] at hc
    rcases hc with h | h | h | h | h
    all_goals first
      | (subst h; exact List.mem_append.2 (Or.inl (b64Char_mem _)))
      | (subst h; decide)
      | cases h
  | case4 b1 b2 b3 rest ih =>
    intro c hc
    simp only [base64Encode, List.mem_cons] at hc
    rcases hc with h | h | h | h | h
    · subst h; exact List.mem_append.2 (Or.inl (b64Char_mem _))
    · subst h; exact List.mem_append.2 (Or.inl (b64Char_mem _))
    · subst h; exact List.mem_append.2 (Or.inl (b64Char_mem _))
    · subst h; exact List.mem_append.2 (Or.inl (b64Char_mem _))
    · exact ih c h

theorem mem_b64chars_facts : ∀ c ∈ b64Alphabet ++ ("=".data),
    ¬isSpaceChar c ∧ c ≠ ',' ∧ c ≠ '#' ∧ c ≠ '[' := by decide

/-! ## Integer printing parses back -/

theorem parseInt64_intToChars {i : Int} (h1 : -(2 ^ 63) ≤ i) (h2 : i ≤ 2 ^ 63 - 1) :
    parseInt64 (intToChars i) = some i := by
  by_cases hneg : i < 0
  · rw [intToChars, if_pos hneg]
    rcases hnc : natToChars i.natAbs with _ | ⟨c, rest⟩
    · exact absurd hnc (natToChars_ne_nil _)
    · simp only [parseInt64, parseIntDigits]
      rw [← hnc, parseNat_roundtrip]
      have habs : ((i.natAbs : Int)) = -i := Int.ofNat_natAbs_of_nonpos (by omega)
      have hle : i.natAbs ≤ 2 ^ 63 := by
        have hx : ((i.natAbs : Int)) ≤ ((2 ^ 63 : Nat) : Int) := by
          rw [habs]
          push_cast
          omega
        exact_mod_cast hx
      simp only [if_pos hle, habs, neg_neg]
      simp
  · rw [intToChars, if_neg hneg]
    rcases hnc : natToChars i.natAbs with _ | ⟨c, rest⟩
    · exact absurd hnc (natToChars_ne_nil _)
    · have hcd := natToChars_mem_digits i.natAbs c (by rw [hnc]; simp)
      have hfacts := mem_digits_facts c hcd
      rw [parseInt64.eq_def]
      split
      · next r heq =>
        simp only [List.cons.injEq] at heq
        exact absurd heq.1 hfacts.2.2.2.2.2.2.2.2.1
      · next r heq =>
        simp only [List.cons.injEq] at heq
        exact absurd heq.1 hfacts.2.2.2.2.2.2.2.1
      · simp only [parseIntDigits]
        rw [← hnc, parseNat_roundtrip]
        have habs : ((i.natAbs : Int)) = i := Int.natAbs_of_nonneg (by omega)
        have hle : i.natAbs ≤ 2 ^ 63 - 1 := by
          have hx : ((i.natAbs : Int)) ≤ ((2 ^ 63 - 1 : Nat) : Int) := by
            rw [habs]
            push_cast
            omega
          exact_mod_cast hx
        simp only [if_pos hle, habs]
        simp

/-! ## IP printing parses back -/

theorem dot_not_mem_natToChars (m : Nat) : '.' ∉ natToChars m := by
  intro hm
  exact (mem_digits_facts '.' (natToChars_mem_digits m '.' hm)).2.1 rfl

theorem slash_not_mem_natToChars (m : Nat) : '/' ∉ natToChars m := by
  intro hm
  exact (mem_digits_facts '/' (natToChars_mem_digits m '/' hm)).2.2.1 rfl

theorem colon_not_mem_natToChars (m : Nat) : ':' ∉ natToChars m := by
  intro hm
  exact (mem_digits_facts ':' (natToChars_mem_digits m ':' hm)).2.2.2.1 rfl

theorem slash_not_mem_ipv4Str (ip : IPv4) : '/' ∉ ipv4Str ip := by
  intro hm
  have := ipv4Str_mem ip '/' hm
  revert this
  decide

theorem colon_not_mem_ipv4Str (ip : IPv4) : ':' ∉ ipv4Str ip := by
  intro hm
  have := ipv4Str_mem ip ':' hm
  revert this
  decide

theorem parseIPv4_roundtrip {ip : IPv4} (h : validIPv4B ip = true) :
    parseIPv4 (ipv4Str ip) = some ip := by
  obtain ⟨o1, o2, o3, o4⟩ := ip
  simp only [validIPv4B, Bool.and_eq_true, decide_eq_true_eq] at h
  obtain ⟨⟨⟨ha, hb⟩, hc⟩, hd⟩ := h
  rw [parseIPv4, ipv4Str]
  dsimp only
  simp only [List.append_assoc, List.cons_append]
  rw [splitChar_append_cons (dot_not_mem_natToChars o1),
    splitChar_append_cons (dot_not_mem_natToChars o2),
    splitChar_append_cons (dot_not_mem_natToChars o3),
    splitChar_of_not_mem (dot_not_mem_natToChars o4)]
  simp only [parseOctet_natToChars ha, parseOctet_natToChars hb, parseOctet_natToChars hc,
    parseOctet_natToChars hd, Option.bind_eq_bind, Option.some_bind]

theorem parseCIDR_roundtrip {n : IPNet} (h : validIPNetB n = true) :
    parseCIDR (ipNetStr n) = some n := by
  obtain ⟨ip, m⟩ := n
  simp only [validIPNetB, Bool.and_eq_true, decide_eq_true_eq] at h
  obtain ⟨hip, hm⟩ := h
  rw [parseCIDR, ipNetStr]
  dsimp only
  rw [splitChar_append_cons (slash_not_mem_ipv4Str ip),
    splitChar_of_not_mem (slash_not_mem_natToChars m)]
  rcases hnc : natToChars m with _ | ⟨c, rest⟩
  · exact absurd hnc (natToChars_ne_nil _)
  · simp only [parseIPv4_roundtrip hip, Option.bind_eq_bind, Option.some_bind]
    rw [← hnc, parseNat_roundtrip]
    simp [hm]

theorem parseUDP_roundtrip {a : UDPAddr} (h : validUDPB a = true) :
    resolveUDPAddr (udpAddrStr a) = some a := by
  obtain ⟨ip, p⟩ := a
  simp only [validUDPB, Bool.and_eq_true, decide_eq_true_eq] at h
  obtain ⟨hip, hp⟩ := h
  rw [resolveUDPAddr, udpAddrStr]
  dsimp only
  rw [splitChar_append_cons (colon_not_mem_ipv4Str ip),
    splitChar_of_not_mem (colon_not_mem_natToChars p)]
  rcases hnc : natToChars p with _ | ⟨c, rest⟩
  · exact absurd hnc (natToChars_ne_nil _)
  · simp only [parseIPv4_roundtrip hip, Option.bind_eq_bind, Option.some_bind]
    rw [← hnc, parseNat_roundtrip]
    simp [hp]

/-! ## Base64 encoding decodes back -/

theorem b64Index_b64Char : ∀ m, m < 64 → b64Index (b64Char m) = some m := by decide

theorem b64Char_ne_pad : ∀ m, m < 64 → b64Char m ≠ '=' := by decide

theorem base64_roundtrip {bs : List Nat} (h : ∀ b ∈ bs, b < 256) :
    base64Decode (base64Encode bs) = some bs := by
  rw [base64Decode]
  induction bs using base64Encode.induct with
  | case1 => rfl
  | case2 b1 =>
    have hb1 : b1 < 256 := h b1 (by simp)
    have e1 := b64Index_b64Char (b1 / 4) (by omega)
    have e2 := b64Index_b64Char (b1 % 4 * 16) (by omega)
    rw [base64Encode]
    simp only [base64DecodeGroups, e1, e2, Option.bind_eq_bind, Option.some_bind,
      if_pos rfl, and_self, reduceIte]
    simp only [Option.some.injEq, List.cons.injEq, and_true]
    omega
  | case3 b1 b2 =>
    have hb1 : b1 < 256 := h b1 (by simp)
    have hb2 : b2 < 256 := h b2 (by simp)
    have e1 := b64Index_b64Char (b1 / 4) (by omega)
    have e2 := b64Index_b64Char (b1 % 4 * 16 + b2 / 16) (by omega)
    have e3 := b64Index_b64Char (b2 % 16 * 4) (by omega)
    have n3 := b64Char_ne_pad (b2 % 16 * 4) (by omega)
    rw [base64Encode]
    simp only [base64DecodeGroups, e1, e2, e3, Option.bind_eq_bind, Option.some_bind,
      if_neg n3, if_pos rfl, reduceIte]
    simp only [Option.some.injEq, List.cons.injEq, and_true]
    constructor <;> omega
  | case4 b1 b2 b3 rest ih =>
    have hb1 : b1 < 256 := h b1 (by simp)
    have hb2 : b2 < 256 := h b2 (by simp)
    have hb3 : b3 < 256 := h b3 (by simp)
    have hrest : ∀ b ∈ rest, b < 256 := fun b hb => h b (by simp [hb])
    have e1 := b64Index_b64Char (b1 / 4) (by omega)
    have e2 := b64Index_b64Char (b1 % 4 * 16 + b2 / 16) (by omega)
    have e3 := b64Index_b64Char (b2 % 16 * 4 + b3 / 64) (by omega)
    have e4 := b64Index_b64Char (b3 % 64) (by omega)
    have n3 := b64Char_ne_pad (b2 % 16 * 4 + b3 / 64) (by omega)
    have n4 := b64Char_ne_pad (b3 % 64) (by omega)
    rw [base64Encode]
    simp only [base64DecodeGroups, e1, e2, e3, e4, Option.bind_eq_bind, Option.some_bind,
      if_neg n3, if_neg n4, ih hrest]
    simp only [Option.some_bind, Option.some.injEq, List.cons.injEq, and_true]
    refine ⟨by omega, by omega, by omega⟩

/-- ParseKey inverts serializeKey on well-formed 32-byte keys. -/
theorem ParseKey_serializeKey {k : WgKey} (h : validKeyB k = true) :
    ParseKey (serializeKey k) = .ok k := by
  obtain ⟨bs⟩ := k
  simp only [validKeyB, Bool.and_eq_true, decide_eq_true_eq, List.all_eq_true] at h
  obtain ⟨hlen, hlt⟩ := h
  rw [ParseKey, serializeKey]
  rw [base64_roundtrip (fun b hb => by simpa using hlt b hb)]
  simp only [keyFromSlice]
  congr 1
  rw [hlen]
  simp [List.take_of_length_le (le_of_eq hlen)]

/-- The strict library parser also inverts serializeKey on well-formed keys. -/
theorem wgtypesParseKey_serializeKey {k : WgKey} (h : validKeyB k = true) :
    wgtypesParseKey (serializeKey k) = .ok k := by
  obtain ⟨bs⟩ := k
  simp only [validKeyB, Bool.and_eq_true, decide_eq_true_eq, List.all_eq_true] at h
  obtain ⟨hlen, hlt⟩ := h
  rw [wgtypesParseKey, serializeKey]
  rw [base64_roundtrip (fun b hb => by simpa using hlt b hb)]
  simp [hlen]

/-! ## Scanner infrastructure lemmas -/

theorem enumF_append (i : Nat) (l1 l2 : List Str) :
    enumF i (l1 ++ l2) = enumF i l1 ++ enumF (i + l1.length) l2 := by
  induction l1 generalizing i with
  | nil => simp [enumF]
  | cons x xs ih =>
    have h1 : enumF i ((x :: xs) ++ l2) = (i, x) :: enumF (i + 1) (xs ++ l2) := rfl
    have h2 : enumF i (x :: xs) = (i, x) :: enumF (i + 1) xs := rfl
    rw [h1, h2, ih]
    have h3 : i + 1 + xs.length = i + (x :: xs).length := by
      rw [List.length_cons]
      omega
    rw [h3]
    rfl

theorem runLines_append (acc : ParseState × Config) (l1 l2 : List (Nat × Str)) :
    runLines acc (l1 ++ l2) =
      match runLines acc l1 with
      | .error e => .error e
      | .ok acc2 => runLines acc2 l2 := by
  induction l1 generalizing acc with
  | nil => simp [runLines]
  | cons nl rest ih =>
    simp only [List.cons_append, runLines]
    cases processLine acc nl with
    | error e => rfl
    | ok acc2 => exact ih acc2

theorem processLine_blank (acc : ParseState × Config) (no : Nat) :
    processLine acc (no, []) = .ok acc := rfl

theorem processLine_interface_header (st : ParseState) (cfg : Config) (no : Nat) :
    processLine (st, cfg) (no, "[Interface]".data) = .ok (.inter, cfg) := by
  have ht : trimSpace ("[Interface]".data) = "[Interface]".data :=
    trimSpace_eq_self_of_all (by decide)
  simp only [processLine, ht]
  simp

theorem processLine_peer_header (st : ParseState) (cfg : Config) (no : Nat) :
    processLine (st, cfg) (no, "[Peer]".data) =
      .ok (.peer, { cfg with peers := cfg.peers ++ [{}] }) := by
  have ht : trimSpace ("[Peer]".data) = "[Peer]".data := trimSpace_eq_self_of_all (by decide)
  simp only [processLine, ht]
  simp

theorem updateLastPeer_concat (cfg : Config) (P : List PeerConfig) (q : PeerConfig)
    (f : PeerConfig → Except Str PeerConfig) (hp : cfg.peers = P ++ [q]) (q' : PeerConfig)
    (hf : f q = .ok q') : updateLastPeer cfg f = .ok { cfg with peers := P ++ [q'] } := by
  rw [updateLastPeer, hp]
  simp only [List.getLast?_concat, hf, List.dropLast_concat]

/-! ## Edge characters of separator joins -/

theorem head?_append_left {l1 l2 : Str} (h : l1 ≠ []) : (l1 ++ l2).head? = l1.head? := by
  cases l1 with
  | nil => exact absurd rfl h
  | cons c rest => rfl

theorem getLast?_append_right (l1 : Str) {l2 : Str} (h : l2 ≠ []) :
    (l1 ++ l2).getLast? = l2.getLast? := by
  rw [← List.head?_reverse, ← List.head?_reverse, List.reverse_append]
  exact head?_append_left (by simpa using h)

theorem ipv4Str_ne_nil (ip : IPv4) : ipv4Str ip ≠ [] := by
  rw [ipv4Str]
  rcases hnc : natToChars ip.o1 with _ | ⟨c, rest⟩
  · exact absurd hnc (natToChars_ne_nil _)
  · simp

theorem ipNetStr_ne_nil (n : IPNet) : ipNetStr n ≠ [] := by
  rw [ipNetStr]
  rcases hnc : ipv4Str n.ip with _ | ⟨c, rest⟩
  · exact absurd hnc (ipv4Str_ne_nil _)
  · simp

theorem joinStrSep_ne_nil {sep : Str} {es : List Str} (h : es ≠ []) (hne : ∀ e ∈ es, e ≠ []) :
    joinStrSep sep es ≠ [] := by
  cases es with
  | nil => exact absurd rfl h
  | cons e rest =>
    cases rest with
    | nil => exact hne e (by simp)
    | cons r rs =>
      simp only [joinStrSep]
      intro hx
      rcases List.append_eq_nil.1 (List.append_eq_nil.1 hx).1 with ⟨he, _⟩
      exact hne e (by simp) he

theorem joinStrSep_head? {sep : Str} (e : Str) (es : List Str) (h : e ≠ []) :
    (joinStrSep sep (e :: es)).head? = e.head? := by
  cases es with
  | nil => rfl
  | cons r rs =>
    simp only [joinStrSep]
    rw [List.append_assoc, head?_append_left h]

theorem joinStrSep_getLast? {sep : Str} {es : List Str} (h : es ≠ []) (hne : ∀ e ∈ es, e ≠ []) :
    ∃ e ∈ es, (joinStrSep sep es).getLast? = e.getLast? := by
  induction es with
  | nil => exact absurd rfl h
  | cons e rest ih =>
    cases rest with
    | nil => exact ⟨e, by simp, rfl⟩
    | cons r rs =>
      have hne2 : ∀ x ∈ r :: rs, x ≠ [] := fun x hx => hne x (by simp [hx])
      obtain ⟨e2, he2, hlast⟩ := ih (by simp) hne2
      refine ⟨e2, by simp [he2], ?_⟩
      simp only [joinStrSep]
      have hJ : joinStrSep sep (r :: rs) ≠ [] := joinStrSep_ne_nil (by simp) hne2
      have hsj : sep ++ joinStrSep sep (r :: rs) ≠ [] := fun hx => hJ (List.append_eq_nil.1 hx).2
      rw [List.append_assoc, getLast?_append_right e hsj, getLast?_append_right sep hJ, hlast]

/-! ## Rendered values are trim-stable -/

theorem mem_digitsDot_facts : ∀ c ∈ ("0123456789.".data),
    ¬isSpaceChar c ∧ c ≠ ',' ∧ c ≠ '=' ∧ c ≠ '#' ∧ c ≠ '[' := by decide

theorem mem_digitsDotSlash_facts : ∀ c ∈ ("0123456789./".data),
    ¬isSpaceChar c ∧ c ≠ ',' ∧ c ≠ '=' ∧ c ≠ '#' ∧ c ≠ '[' := by decide

theorem mem_digitsDotColon_facts : ∀ c ∈ ("0123456789.:".data),
    ¬isSpaceChar c ∧ c ≠ ',' ∧ c ≠ '=' ∧ c ≠ '#' ∧ c ≠ '[' := by decide

theorem trimSpace_natToChars (m : Nat) : trimSpace (natToChars m) = natToChars m :=
  trimSpace_eq_self_of_all (fun c hc => (mem_digits_facts c (natToChars_mem_digits m c hc)).1)

theorem trimSpace_intToChars (i : Int) : trimSpace (intToChars i) = intToChars i :=
  trimSpace_eq_self_of_all (fun c hc => (mem_intchars_facts c (intToChars_mem i c hc)).1)

theorem trimSpace_ipv4Str (ip : IPv4) : trimSpace (ipv4Str ip) = ipv4Str ip :=
  trimSpace_eq_self_of_all (fun c hc => (mem_digitsDot_facts c (ipv4Str_mem ip c hc)).1)

theorem trimSpace_ipNetStr (n : IPNet) : trimSpace (ipNetStr n) = ipNetStr n :=
  trimSpace_eq_self_of_all (fun c hc => (mem_digitsDotSlash_facts c (ipNetStr_mem n c hc)).1)

theorem trimSpace_udpAddrStr (a : UDPAddr) : trimSpace (udpAddrStr a) = udpAddrStr a :=
  trimSpace_eq_self_of_all (fun c hc => (mem_digitsDotColon_facts c (udpAddrStr_mem a c hc)).1)

theorem trimSpace_serializeKey (k : WgKey) : trimSpace (serializeKey k) = serializeKey k :=
  trimSpace_eq_self_of_all (fun c hc => (mem_b64chars_facts c (serializeKey_mem k c hc)).1)

theorem comma_not_mem_ipv4Str (ip : IPv4) : ',' ∉ ipv4Str ip := by
  intro hm
  exact (mem_digitsDot_facts ',' (ipv4Str_mem ip ',' hm)).2.1 rfl

theorem comma_not_mem_ipNetStr (n : IPNet) : ',' ∉ ipNetStr n := by
  intro hm
  exact (mem_digitsDotSlash_facts ',' (ipNetStr_mem n ',' hm)).2.1 rfl

theorem trimSpace_space_cons (s : Str) : trimSpace (' ' :: s) = trimSpace s :=
  trimSpace_cons_space_front isSpaceChar_space s

/-- Splitting a comma-space join back apart: the tail elements keep one
leading space, which the element-wise TrimSpace later removes. -/
theorem splitChar_comma_join {es : List Str} (e : Str) (he : ',' ∉ e)
    (hne : ∀ x ∈ es, ',' ∉ x) :
    splitChar ',' (joinStrSep (", ".data) (e :: es)) = e :: es.map (fun x => ' ' :: x) := by
  induction es generalizing e with
  | nil => exact splitChar_of_not_mem he
  | cons r rs ih =>
    have hshape : joinStrSep (", ".data) (e :: r :: rs)
        = e ++ ',' :: ' ' :: joinStrSep (", ".data) (r :: rs) := by
      simp only [joinStrSep]
      rw [List.append_assoc]
      rfl
    rw [hshape, splitChar_append_cons he]
    have hr := ih r (hne r (by simp)) (fun x hx => hne x (by simp [hx]))
    simp only [splitChar]
    rw [if_neg (by decide)]
    rw [hr]
    simp

/-! ## Except monad reductions -/

theorem exceptPure_eq {ε α : Type} (x : α) : (pure x : Except ε α) = .ok x := rfl

theorem exceptBind_ok {ε α β : Type} (x : α) (f : α → Except ε β) :
    ((.ok x : Except ε α) >>= f) = f x := rfl

theorem exceptBind_err {ε α β : Type} (e : ε) (f : α → Except ε β) :
    ((.error e : Except ε α) >>= f) = .error e := rfl

/-! ## Field grammar lemmas for rendered values -/

theorem intToChars_ne_nil (i : Int) : intToChars i ≠ [] := by
  rw [intToChars]
  split
  · simp
  · exact natToChars_ne_nil _

theorem toLower_intChars_ne_o : ∀ c ∈ ("0123456789-".data), Char.toLower c ≠ 'o' := by decide

theorem intToChars_toLower_ne_off (i : Int) : (intToChars i).map Char.toLower ≠ ("off".data) := by
  rcases hnc : intToChars i with _ | ⟨c, rest⟩
  · exact absurd hnc (intToChars_ne_nil i)
  · intro he
    have hc : c ∈ ("0123456789-".data) := intToChars_mem i c (by rw [hnc]; simp)
    simp only [List.map_cons] at he
    have h1 : Char.toLower c = 'o' := (List.cons.injEq _ _ _ _ |>.mp he).1
    exact toLower_intChars_ne_o c hc h1

theorem parseInterfaceLine_address (cfg : Config) {a : IPNet} (h : validIPNetB a = true) :
    parseInterfaceLine cfg ("Address".data) (ipNetStr a) =
      .ok { cfg with address := cfg.address ++ [a] } := by
  rw [parseInterfaceLine, if_pos rfl, splitChar_of_not_mem (comma_not_mem_ipNetStr a)]
  simp only [List.foldlM, trimSpace_ipNetStr, parseCIDR_roundtrip h, exceptBind_ok, exceptPure_eq]

theorem parseInterfaceLine_dns (cfg : Config) {d : IPv4} (h : validIPv4B d = true) :
    parseInterfaceLine cfg ("DNS".data) (ipv4Str d) =
      .ok { cfg with dns := cfg.dns ++ [d] } := by
  rw [parseInterfaceLine, if_neg (by decide), if_pos rfl,
    splitChar_of_not_mem (comma_not_mem_ipv4Str d)]
  simp only [List.foldlM, trimSpace_ipv4Str, parseIPv4_roundtrip h, exceptBind_ok, exceptPure_eq]

theorem parseInterfaceLine_mtu (cfg : Config) {i : Int} (h1 : -(2 ^ 63) ≤ i)
    (h2 : i ≤ 2 ^ 63 - 1) :
    parseInterfaceLine cfg ("MTU".data) (intToChars i) = .ok { cfg with mtu := i } := by
  rw [parseInterfaceLine, if_neg (by decide), if_neg (by decide), if_pos rfl,
    parseInt64_intToChars h1 h2]

theorem parseInterfaceLine_table (cfg : Config) {i : Int} (h1 : -(2 ^ 63) ≤ i)
    (h2 : i ≤ 2 ^ 63 - 1) :
    parseInterfaceLine cfg ("Table".data) (intToChars i) = .ok { cfg with table := some i } := by
  rw [parseInterfaceLine, if_neg (by decide), if_neg (by decide), if_neg (by decide), if_pos rfl,
    if_neg (intToChars_toLower_ne_off i), parseInt64_intToChars h1 h2]

theorem parseInterfaceLine_listenPort (cfg : Config) {i : Int} (h1 : -(2 ^ 63) ≤ i)
    (h2 : i ≤ 2 ^ 63 - 1) :
    parseInterfaceLine cfg ("ListenPort".data) (intToChars i) =
      .ok { cfg with listenPort := some i } := by
  rw [parseInterfaceLine, if_neg (by decide), if_neg (by decide), if_neg (by decide),
    if_neg (by decide), if_pos rfl, parseInt64_intToChars h1 h2]

theorem parseInterfaceLine_saveConfig (cfg : Config) :
    parseInterfaceLine cfg ("SaveConfig".data) ("true".data) =
      .ok { cfg with saveConfig := true } := by
  rw [parseInterfaceLine, if_neg (by decide), if_neg (by decide), if_neg (by decide),
    if_neg (by decide), if_neg (by decide), if_neg (by decide), if_neg (by decide),
    if_neg (by decide), if_neg (by decide), if_pos rfl]
  rw [show parseBool ("true".data) = some true by decide]

theorem parseInterfaceLine_privateKey (cfg : Config) {k : WgKey} (h : validKeyB k = true) :
    parseInterfaceLine cfg ("PrivateKey".data) (serializeKey k) =
      .ok { cfg with privateKey := some k } := by
  rw [parseInterfaceLine, if_neg (by decide), if_neg (by decide), if_neg (by decide),
    if_neg (by decide), if_neg (by decide), if_neg (by decide), if_neg (by decide),
    if_neg (by decide), if_neg (by decide), if_neg (by decide), if_pos rfl,
    ParseKey_serializeKey h]

theorem parsePeerLine_publicKey (q : PeerConfig) {k : WgKey} (h : validKeyB k = true) :
    parsePeerLine q ("PublicKey".data) (serializeKey k) = .ok { q with publicKey := k } := by
  rw [parsePeerLine, if_pos rfl, ParseKey_serializeKey h]

theorem parsePeerLine_presharedKey (q : PeerConfig) {k : WgKey} (h : validKeyB k = true)
    (hq : q.presharedKey = none) :
    parsePeerLine q ("PresharedKey".data) (serializeKey k) =
      .ok { q with presharedKey := some k } := by
  rw [parsePeerLine, if_neg (by decide), if_pos rfl, ParseKey_serializeKey h]
  dsimp only
  rw [if_neg (by simp [hq])]

theorem parsePeerLine_endpoint (q : PeerConfig) {a : UDPAddr} (h : validUDPB a = true) :
    parsePeerLine q ("Endpoint".data) (udpAddrStr a) = .ok { q with endpoint := some a } := by
  rw [parsePeerLine, if_neg (by decide), if_neg (by decide), if_neg (by decide), if_pos rfl,
    parseUDP_roundtrip h]

theorem wrap64_id {i : Int} (h1 : -(2 ^ 63) ≤ i) (h2 : i < 2 ^ 63) : wrap64 i = i := by
  rw [wrap64]
  omega

theorem parsePeerLine_keepalive (q : PeerConfig) {d : Int} (h : validKeepB d = true) :
    parsePeerLine q ("PersistentKeepalive".data) (intToChars (toSeconds d)) =
      .ok { q with persistentKeepaliveInterval := some d } := by
  simp only [validKeepB, Bool.and_eq_true, decide_eq_true_eq] at h
  obtain ⟨⟨hmul, hlo⟩, hhi⟩ := h
  rw [parsePeerLine, if_neg (by decide), if_neg (by decide), if_neg (by decide),
    if_neg (by decide), if_pos rfl,
    parseInt64_intToChars (by omega) (by omega)]
  have hw : wrap64 (toSeconds d * 1000000000) = d := by
    rw [hmul]
    exact wrap64_id (by omega) (by omega)
  dsimp only
  rw [hw]

/-- The AllowedIPs step function folded over the comma-split parts. -/
theorem foldAllowed_tail (q : PeerConfig) (l : List IPNet)
    (h : ∀ x ∈ l, validIPNetB x = true) :
    List.foldlM (fun p addr =>
      match parseCIDR (trimSpace addr) with
      | none => Except.error (("cannot parse ".data) ++ addr)
      | some n => Except.ok { p with allowedIPs := p.allowedIPs ++ [n] })
      q (List.map (fun x => ' ' :: x) (l.map ipNetStr)) =
      .ok { q with allowedIPs := q.allowedIPs ++ l } := by
  induction l generalizing q with
  | nil =>
    simp only [List.map_nil, List.foldlM, List.append_nil]
    rfl
  | cons a rest ih =>
    simp only [List.map_cons, List.foldlM, trimSpace_space_cons, trimSpace_ipNetStr,
      parseCIDR_roundtrip (h a (by simp)), exceptBind_ok]
    rw [show q.allowedIPs ++ a :: rest = (q.allowedIPs ++ [a]) ++ rest by simp]
    exact ih _ (fun x hx => h x (by simp [hx]))

theorem parsePeerLine_allowed (q : PeerConfig) {l : List IPNet} (hl : l ≠ [])
    (h : ∀ x ∈ l, validIPNetB x = true) :
    parsePeerLine q ("AllowedIPs".data) (joinStrSep (", ".data) (l.map ipNetStr)) =
      .ok { q with allowedIPs := q.allowedIPs ++ l } := by
  rcases l with _ | ⟨a, rest⟩
  · exact absurd rfl hl
  · rw [parsePeerLine, if_neg (by decide), if_neg (by decide), if_pos rfl]
    rw [List.map_cons, splitChar_comma_join (ipNetStr a) (comma_not_mem_ipNetStr a)
      (by
        intro x hx
        obtain ⟨y, hy, rfl⟩ := List.mem_map.1 hx
        exact comma_not_mem_ipNetStr y)]
    simp only [List.foldlM, trimSpace_ipNetStr, parseCIDR_roundtrip (h a (by simp)),
      exceptBind_ok]
    rw [show q.allowedIPs ++ a :: rest = (q.allowedIPs ++ [a]) ++ rest by simp]
    exact foldAllowed_tail { q with allowedIPs := q.allowedIPs ++ [a] } rest
      (fun x hx => h x (by simp [hx]))

/-! ## Composing scanner runs -/

theorem runLines_step {acc acc2 : ParseState × Config} {nl : Nat × Str}
    (rest : List (Nat × Str)) (h : processLine acc nl = .ok acc2) :
    runLines acc (nl :: rest) = runLines acc2 rest := by
  simp only [runLines, h]

theorem runLines_seq {acc1 acc2 acc3 : ParseState × Config} {l1 l2 : List Str} {i : Nat}
    (h1 : runLines acc1 (enumF i l1) = .ok acc2)
    (h2 : runLines acc2 (enumF (i + l1.length) l2) = .ok acc3) :
    runLines acc1 (enumF i (l1 ++ l2)) = .ok acc3 := by
  rw [enumF_append, runLines_append, h1]
  exact h2

theorem processLine_inter_field (cfg : Config) (no : Nat) (k0 v : Str)
    (h1 : k0 ≠ []) (h2 : ∀ c ∈ k0.head?, ¬isSpaceChar c)
    (h3 : ∀ c ∈ k0.getLast?, ¬isSpaceChar c) (h4 : '=' ∉ k0)
    (h5 : ∀ c ∈ k0.head?, c ≠ '#') (cfg' : Config)
    (hf : parseInterfaceLine cfg k0 (trimSpace v) = .ok cfg') :
    processLine (.inter, cfg) (no, k0 ++ ' ' :: '=' :: ' ' :: v) = .ok (.inter, cfg') := by
  rw [processLine_kv .inter cfg no k0 v h1 h2 h3 h4 h5]
  dsimp only
  rw [hf]

theorem processLine_peer_field (cfg : Config) (P : List PeerConfig) (q : PeerConfig)
    (hp : cfg.peers = P ++ [q]) (no : Nat) (k0 v : Str)
    (h1 : k0 ≠ []) (h2 : ∀ c ∈ k0.head?, ¬isSpaceChar c)
    (h3 : ∀ c ∈ k0.getLast?, ¬isSpaceChar c) (h4 : '=' ∉ k0)
    (h5 : ∀ c ∈ k0.head?, c ≠ '#') (q' : PeerConfig)
    (hf : parsePeerLine q k0 (trimSpace v) = .ok q') :
    processLine (.peer, cfg) (no, k0 ++ ' ' :: '=' :: ' ' :: v) =
      .ok (.peer, { cfg with peers := P ++ [q'] }) := by
  rw [processLine_kv .peer cfg no k0 v h1 h2 h3 h4 h5]
  dsimp only
  rw [updateLastPeer_concat cfg P q _ hp q' hf]

/-! ## Decoding the rendered interface lines -/

theorem processLine_addrLine (cfg : Config) (no : Nat) {a : IPNet}
    (h : validIPNetB a = true) :
    processLine (.inter, cfg) (no, addrLine a) =
      .ok (.inter, { cfg with address := cfg.address ++ [a] }) := by
  rw [show addrLine a = ("Address".data) ++ ' ' :: '=' :: ' ' :: ipNetStr a from rfl]
  exact processLine_inter_field cfg no ("Address".data) (ipNetStr a)
    (by decide) (by decide) (by decide) (by decide) (by decide) _
    (by rw [trimSpace_ipNetStr]; exact parseInterfaceLine_address cfg h)

theorem processLine_dnsLine (cfg : Config) (no : Nat) {d : IPv4}
    (h : validIPv4B d = true) :
    processLine (.inter, cfg) (no, dnsLine d) =
      .ok (.inter, { cfg with dns := cfg.dns ++ [d] }) := by
  rw [show dnsLine d = ("DNS".data) ++ ' ' :: '=' :: ' ' :: ipv4Str d from rfl]
  exact processLine_inter_field cfg no ("DNS".data) (ipv4Str d)
    (by decide) (by decide) (by decide) (by decide) (by decide) _
    (by rw [trimSpace_ipv4Str]; exact parseInterfaceLine_dns cfg h)

theorem runLines_addresses (cfg : Config) {l : List IPNet}
    (h : ∀ x ∈ l, validIPNetB x = true) (i : Nat) :
    runLines (.inter, cfg) (enumF i (l.map addrLine)) =
      .ok (.inter, { cfg with address := cfg.address ++ l }) := by
  induction l generalizing cfg i with
  | nil => simp [enumF, runLines]
  | cons a rest ih =>
    rw [show enumF i (List.map addrLine (a :: rest)) =
      (i, addrLine a) :: enumF (i + 1) (List.map addrLine rest) from rfl]
    rw [runLines_step _ (processLine_addrLine cfg i (h a (by simp)))]
    rw [ih _ (fun x hx => h x (by simp [hx])) _]
    rw [show cfg.address ++ a :: rest = (cfg.address ++ [a]) ++ rest by simp]

theorem runLines_dnss (cfg : Config) {l : List IPv4}
    (h : ∀ x ∈ l, validIPv4B x = true) (i : Nat) :
    runLines (.inter, cfg) (enumF i (l.map dnsLine)) =
      .ok (.inter, { cfg with dns := cfg.dns ++ l }) := by
  induction l generalizing cfg i with
  | nil => simp [enumF, runLines]
  | cons d rest ih =>
    rw [show enumF i (List.map dnsLine (d :: rest)) =
      (i, dnsLine d) :: enumF (i + 1) (List.map dnsLine rest) from rfl]
    rw [runLines_step _ (processLine_dnsLine cfg i (h d (by simp)))]
    rw [ih _ (fun x hx => h x (by simp [hx])) _]
    rw [show cfg.dns ++ d :: rest = (cfg.dns ++ [d]) ++ rest by simp]

/-! ## Decoding the remaining rendered lines -/

theorem trimSpace_joinIPNets {l : List IPNet} (hl : l ≠ []) :
    trimSpace (joinStrSep (", ".data) (l.map ipNetStr)) =
      joinStrSep (", ".data) (l.map ipNetStr) := by
  apply trimSpace_eq_self
  · rcases l with _ | ⟨a, rest⟩
    · exact absurd rfl hl
    · intro c hc
      rw [List.map_cons, joinStrSep_head? (ipNetStr a) _ (ipNetStr_ne_nil a)] at hc
      exact (mem_digitsDotSlash_facts c (ipNetStr_mem a c (List.mem_of_mem_head? hc))).1
  · intro c hc
    have hne : ∀ e ∈ l.map ipNetStr, e ≠ [] := by
      intro e he
      obtain ⟨y, hy, rfl⟩ := List.mem_map.1 he
      exact ipNetStr_ne_nil y
    obtain ⟨e, he, hlast⟩ := joinStrSep_getLast? (by simpa using hl) hne
    rw [hlast] at hc
    obtain ⟨y, hy, rfl⟩ := List.mem_map.1 he
    have hcr : c ∈ (ipNetStr y).reverse := by
      apply List.mem_of_mem_head?
      rwa [List.head?_reverse]
    exact (mem_digitsDotSlash_facts c (ipNetStr_mem y c (by simpa using hcr))).1

theorem processLine_privateKeyLine (cfg : Config) (no : Nat) {k : WgKey}
    (h : validKeyB k = true) :
    processLine (.inter, cfg) (no, privateKeyLine k) =
      .ok (.inter, { cfg with privateKey := some k }) := by
  rw [show privateKeyLine k = ("PrivateKey".data) ++ ' ' :: '=' :: ' ' :: serializeKey k from rfl]
  exact processLine_inter_field cfg no _ _ (by decide) (by decide) (by decide) (by decide)
    (by decide) _ (by rw [trimSpace_serializeKey]; exact parseInterfaceLine_privateKey cfg h)

theorem processLine_listenPortLine (cfg : Config) (no : Nat) {p : Int}
    (h1 : -(2 ^ 63) ≤ p) (h2 : p ≤ 2 ^ 63 - 1) :
    processLine (.inter, cfg) (no, listenPortLine p) =
      .ok (.inter, { cfg with listenPort := some p }) := by
  rw [show listenPortLine p = ("ListenPort".data) ++ ' ' :: '=' :: ' ' :: intToChars p from rfl]
  exact processLine_inter_field cfg no _ _ (by decide) (by decide) (by decide) (by decide)
    (by decide) _ (by rw [trimSpace_intToChars]; exact parseInterfaceLine_listenPort cfg h1 h2)

theorem processLine_mtuLine (cfg : Config) (no : Nat) {m : Int}
    (h1 : -(2 ^ 63) ≤ m) (h2 : m ≤ 2 ^ 63 - 1) :
    processLine (.inter, cfg) (no, mtuLine m) = .ok (.inter, { cfg with mtu := m }) := by
  rw [show mtuLine m = ("MTU".data) ++ ' ' :: '=' :: ' ' :: intToChars m from rfl]
  exact processLine_inter_field cfg no _ _ (by decide) (by decide) (by decide) (by decide)
    (by decide) _ (by rw [trimSpace_intToChars]; exact parseInterfaceLine_mtu cfg h1 h2)

theorem processLine_tableLine (cfg : Config) (no : Nat) {t : Int}
    (h1 : -(2 ^ 63) ≤ t) (h2 : t ≤ 2 ^ 63 - 1) :
    processLine (.inter, cfg) (no, tableLine t) =
      .ok (.inter, { cfg with table := some t }) := by
  rw [show tableLine t = ("Table".data) ++ ' ' :: '=' :: ' ' :: intToChars t from rfl]
  exact processLine_inter_field cfg no _ _ (by decide) (by decide) (by decide) (by decide)
    (by decide) _ (by rw [trimSpace_intToChars]; exact parseInterfaceLine_table cfg h1 h2)

theorem processLine_saveConfigLine (cfg : Config) (no : Nat) :
    processLine (.inter, cfg) (no, ("SaveConfig = true".data)) =
      .ok (.inter, { cfg with saveConfig := true }) := by
  rw [show ("SaveConfig = true".data) =
    ("SaveConfig".data) ++ ' ' :: '=' :: ' ' :: ("true".data) from rfl]
  refine processLine_inter_field cfg no _ _ (by decide) (by decide) (by decide) (by decide)
    (by decide) _ ?_
  rw [show trimSpace ("true".data) = ("true".data) from by decide]
  exact parseInterfaceLine_saveConfig cfg

theorem processLine_pubKeyLine (cfg : Config) (P : List PeerConfig) (q : PeerConfig)
    (hp : cfg.peers = P ++ [q]) (no : Nat) {k : WgKey} (h : validKeyB k = true) :
    processLine (.peer, cfg) (no, pubKeyLine k) =
      .ok (.peer, { cfg with peers := P ++ [{ q with publicKey := k }] }) := by
  rw [show pubKeyLine k = ("PublicKey".data) ++ ' ' :: '=' :: ' ' :: serializeKey k from rfl]
  exact processLine_peer_field cfg P q hp no _ _ (by decide) (by decide) (by decide) (by decide)
    (by decide) _ (by rw [trimSpace_serializeKey]; exact parsePeerLine_publicKey q h)

theorem processLine_allowedLine (cfg : Config) (P : List PeerConfig) (q : PeerConfig)
    (hp : cfg.peers = P ++ [q]) (no : Nat) {l : List IPNet} (hl : l ≠ [])
    (h : ∀ x ∈ l, validIPNetB x = true) :
    processLine (.peer, cfg) (no, allowedLine l) =
      .ok (.peer, { cfg with peers := P ++ [{ q with allowedIPs := q.allowedIPs ++ l }] }) := by
  rw [show allowedLine l = ("AllowedIPs".data) ++ ' ' :: '=' :: ' ' ::
    joinStrSep (", ".data) (l.map ipNetStr) from rfl]
  exact processLine_peer_field cfg P q hp no _ _ (by decide) (by decide) (by decide) (by decide)
    (by decide) _ (by rw [trimSpace_joinIPNets hl]; exact parsePeerLine_allowed q hl h)

theorem processLine_presharedLine (cfg : Config) (P : List PeerConfig) (q : PeerConfig)
    (hp : cfg.peers = P ++ [q]) (no : Nat) {k : WgKey} (h : validKeyB k = true)
    (hq : q.presharedKey = none) :
    processLine (.peer, cfg) (no, presharedLine k) =
      .ok (.peer, { cfg with peers := P ++ [{ q with presharedKey := some k }] }) := by
  rw [show presharedLine k = ("PresharedKey".data) ++ ' ' :: '=' :: ' ' :: serializeKey k from rfl]
  exact processLine_peer_field cfg P q hp no _ _ (by decide) (by decide) (by decide) (by decide)
    (by decide) _ (by rw [trimSpace_serializeKey]; exact parsePeerLine_presharedKey q h hq)

theorem processLine_keepaliveLine (cfg : Config) (P : List PeerConfig) (q : PeerConfig)
    (hp : cfg.peers = P ++ [q]) (no : Nat) {d : Int} (h : validKeepB d = true) :
    processLine (.peer, cfg) (no, keepaliveLine d) =
      .ok (.peer, { cfg with peers := P ++
        [{ q with persistentKeepaliveInterval := some d }] }) := by
  rw [show keepaliveLine d = ("PersistentKeepalive".data) ++ ' ' :: '=' :: ' ' ::
    intToChars (toSeconds d) from rfl]
  exact processLine_peer_field cfg P q hp no _ _ (by decide) (by decide) (by decide) (by decide)
    (by decide) _ (by rw [trimSpace_intToChars]; exact parsePeerLine_keepalive q h)

theorem processLine_endpointLine (cfg : Config) (P : List PeerConfig) (q : PeerConfig)
    (hp : cfg.peers = P ++ [q]) (no : Nat) {a : UDPAddr} (h : validUDPB a = true) :
    processLine (.peer, cfg) (no, endpointLine a) =
      .ok (.peer, { cfg with peers := P ++ [{ q with endpoint := some a }] }) := by
  rw [show endpointLine a = ("Endpoint".data) ++ ' ' :: '=' :: ' ' :: udpAddrStr a from rfl]
  exact processLine_peer_field cfg P q hp no _ _ (by decide) (by decide) (by decide) (by decide)
    (by decide) _ (by rw [trimSpace_udpAddrStr]; exact parsePeerLine_endpoint q h)

/-! ## Decoding an entire rendered peer block -/

theorem runLines_optPreshared (cfg : Config) (P : List PeerConfig) (q : PeerConfig)
    (hp : cfg.peers = P ++ [q]) (i : Nat) (o : Option WgKey)
    (ho : ∀ k, o = some k → validKeyB k = true) (hq : q.presharedKey = none) :
    runLines (.peer, cfg) (enumF i (optLines presharedLine o)) =
      .ok (.peer, { cfg with peers := P ++ [{ q with presharedKey := o }] }) := by
  cases o with
  | none =>
    rw [show enumF i (optLines presharedLine none) = [] from rfl, runLines]
    rw [show ({ q with presharedKey := none } : PeerConfig) = q from by
      obtain ⟨a, b, c, d, e⟩ := q
      cases hq
      rfl]
    rw [← hp]
  | some k =>
    rw [show enumF i (optLines presharedLine (some k)) = [(i, presharedLine k)] from rfl]
    rw [runLines_step _ (processLine_presharedLine cfg P q hp i (ho k rfl) hq)]
    rfl

theorem runLines_optKeepalive (cfg : Config) (P : List PeerConfig) (q : PeerConfig)
    (hp : cfg.peers = P ++ [q]) (i : Nat) (o : Option Int)
    (ho : ∀ d, o = some d → validKeepB d = true)
    (hq : q.persistentKeepaliveInterval = none) :
    runLines (.peer, cfg) (enumF i (optLines keepaliveLine o)) =
      .ok (.peer, { cfg with peers := P ++ [{ q with persistentKeepaliveInterval := o }] }) := by
  cases o with
  | none =>
    rw [show enumF i (optLines keepaliveLine none) = [] from rfl, runLines]
    rw [show ({ q with persistentKeepaliveInterval := none } : PeerConfig) = q from by
      obtain ⟨a, b, c, d, e⟩ := q
      cases hq
      rfl]
    rw [← hp]
  | some d =>
    rw [show enumF i (optLines keepaliveLine (some d)) = [(i, keepaliveLine d)] from rfl]
    rw [runLines_step _ (processLine_keepaliveLine cfg P q hp i (ho d rfl))]
    rfl

theorem runLines_optEndpoint (cfg : Config) (P : List PeerConfig) (q : PeerConfig)
    (hp : cfg.peers = P ++ [q]) (i : Nat) (o : Option UDPAddr)
    (ho : ∀ a, o = some a → validUDPB a = true) (hq : q.endpoint = none) :
    runLines (.peer, cfg) (enumF i (optLines endpointLine o)) =
      .ok (.peer, { cfg with peers := P ++ [{ q with endpoint := o }] }) := by
  cases o with
  | none =>
    rw [show enumF i (optLines endpointLine none) = [] from rfl, runLines]
    rw [show ({ q with endpoint := none } : PeerConfig) = q from by
      obtain ⟨a, b, c, d, e⟩ := q
      cases hq
      rfl]
    rw [← hp]
  | some a =>
    rw [show enumF i (optLines endpointLine (some a)) = [(i, endpointLine a)] from rfl]
    rw [runLines_step _ (processLine_endpointLine cfg P q hp i (ho a rfl))]
    rfl

theorem runLines_peerBlock (st : ParseState) (cfg : Config) {p : PeerConfig}
    (hv : validPeerB p = true) (i : Nat) :
    runLines (st, cfg) (enumF i (peerLines p)) =
      .ok (.peer, { cfg with peers := cfg.peers ++ [p] }) := by
  obtain ⟨pk, psk, aips, ep, ka⟩ := p
  rw [validPeerB] at hv
  simp only [Bool.and_eq_true] at hv
  obtain ⟨⟨⟨⟨⟨hpk, hpskB⟩, haneB⟩, hallB⟩, hepB⟩, hkaB⟩ := hv
  have hane : aips ≠ [] := by
    simp only [Bool.not_eq_true'] at haneB
    simpa [List.isEmpty_iff] using haneB
  have hall : ∀ x ∈ aips, validIPNetB x = true := by
    simpa [List.all_eq_true] using hallB
  have hpsk : ∀ k, psk = some k → validKeyB k = true := by
    intro k hk
    subst hk
    exact hpskB
  have hka : ∀ d, ka = some d → validKeepB d = true := by
    intro d hd
    subst hd
    exact hkaB
  have hep : ∀ a, ep = some a → validUDPB a = true := by
    intro a ha
    subst ha
    exact hepB
  have hcore : runLines (st, cfg) (enumF i [[], "[Peer]".data, pubKeyLine pk, allowedLine aips]) =
      .ok (.peer, { cfg with peers := cfg.peers ++
        [⟨pk, none, aips, none, none⟩] }) := by
    rw [show enumF i [[], "[Peer]".data, pubKeyLine pk, allowedLine aips] =
      (i, []) :: (i + 1, "[Peer]".data) :: (i + 2, pubKeyLine pk) ::
        [(i + 3, allowedLine aips)] from rfl]
    rw [runLines_step _ (processLine_blank (st, cfg) i),
      runLines_step _ (processLine_peer_header st cfg (i + 1)),
      runLines_step _ (processLine_pubKeyLine _ cfg.peers {} rfl (i + 2) hpk),
      runLines_step _ (processLine_allowedLine _ cfg.peers _ rfl (i + 3) hane hall)]
    rfl
  exact runLines_seq (runLines_seq (runLines_seq hcore
    (runLines_optPreshared _ cfg.peers _ rfl _ psk hpsk rfl))
    (runLines_optKeepalive _ cfg.peers _ rfl _ ka hka rfl))
    (runLines_optEndpoint _ cfg.peers _ rfl _ ep hep rfl)

/-! ## The template output, line by line -/

theorem concatMapStr_append (f : α → Str) (l1 l2 : List α) :
    concatMapStr f (l1 ++ l2) = concatMapStr f l1 ++ concatMapStr f l2 := by
  induction l1 with
  | nil => rfl
  | cons x xs ih => simp [concatMapStr, ih, List.append_assoc]

theorem concatMapStr_map (f : β → Str) (g : α → β) (l : List α) :
    concatMapStr f (l.map g) = concatMapStr (fun a => f (g a)) l := by
  induction l with
  | nil => rfl
  | cons x xs ih => simp [concatMapStr, ih]

theorem nlConcat_append (l1 l2 : List Str) : nlConcat (l1 ++ l2) = nlConcat l1 ++ nlConcat l2 :=
  concatMapStr_append _ l1 l2

theorem nlConcat_single (x : Str) : nlConcat [x] = '\n' :: x := by
  simp [nlConcat, concatMapStr]

theorem renderPeer_eq (p : PeerConfig) : renderPeer p = nlConcat (peerLines p) := by
  obtain ⟨pk, psk, aips, ep, ka⟩ := p
  rcases psk with _ | k1 <;> rcases ka with _ | d1 <;> rcases ep with _ | a1 <;>
    simp [renderPeer, peerLines, nlConcat, concatMapStr, optLines, pubKeyLine, allowedLine,
      presharedLine, keepaliveLine, endpointLine, List.append_assoc]

theorem nlConcat_peerLines (ps : List PeerConfig) :
    nlConcat ((ps.map peerLines).flatten) = concatMapStr renderPeer ps := by
  induction ps with
  | nil => rfl
  | cons p rest ih =>
    simp only [List.map_cons, List.flatten_cons, nlConcat_append, concatMapStr, ih,
      renderPeer_eq]

theorem nlConcat_nil : nlConcat [] = [] := rfl

theorem nlConcat_cons (x : Str) (xs : List Str) :
    nlConcat (x :: xs) = '\n' :: (x ++ nlConcat xs) := rfl

theorem nlConcat_map (g : α → Str) (l : List α) :
    nlConcat (l.map g) = concatMapStr (fun a => '\n' :: g a) l :=
  concatMapStr_map _ g l

theorem renderConfig_eq (cfg : Config) (pk : WgKey)
    (h1 : cfg.preUp = []) (h2 : cfg.postUp = []) (h3 : cfg.preDown = [])
    (h4 : cfg.postDown = []) :
    renderConfig cfg pk =
      ("[Interface]".data) ++ nlConcat (configRestLines cfg pk) ++ ('\n' :: []) := by
  rw [renderConfig, configRestLines, h1, h2, h3, h4]
  rcases hlp : cfg.listenPort with _ | lp <;> rcases htb : cfg.table with _ | tb <;>
    by_cases hm : cfg.mtu = 0 <;> by_cases hs : cfg.saveConfig <;>
      simp [hm, hs, nlConcat_append, nlConcat_single, nlConcat_nil, nlConcat_cons,
        nlConcat_map, nlConcat_peerLines, optLines, concatMapStr, addrLine, dnsLine,
        privateKeyLine, listenPortLine, mtuLine, tableLine, List.append_assoc]

/-! ## Interface option phases and the peers phase -/

theorem runLines_one {cfg cfg' : Config} {l : Str} {i : Nat}
    (h : processLine (.inter, cfg) (i, l) = .ok (.inter, cfg')) :
    runLines (.inter, cfg) (enumF i [l]) = .ok (.inter, cfg') := by
  rw [show enumF i [l] = [(i, l)] from rfl, runLines_step _ h]
  rfl

theorem runLines_optListenPort (cfg : Config) (i : Nat) (o : Option Int)
    (ho : ∀ p, o = some p → int64Range p = true) (hq : cfg.listenPort = none) :
    runLines (.inter, cfg) (enumF i (optLines listenPortLine o)) =
      .ok (.inter, { cfg with listenPort := o }) := by
  cases o with
  | none =>
    rw [show enumF i (optLines listenPortLine none) = [] from rfl, runLines]
    rw [show ({ cfg with listenPort := none } : Config) = cfg from by
      obtain ⟨f1, f2, f3, f4, f5, f6, f7, f8, f9, f10, f11, f12, f13, f14, f15, f16⟩ := cfg
      cases hq
      rfl]
  | some p =>
    have hr := ho p rfl
    rw [int64Range, Bool.and_eq_true, decide_eq_true_eq, decide_eq_true_eq] at hr
    exact runLines_one (processLine_listenPortLine cfg i hr.1 hr.2)

theorem runLines_ifMtu (cfg : Config) (i : Nat) (m : Int)
    (h1 : -(2 ^ 63) ≤ m) (h2 : m ≤ 2 ^ 63 - 1) (hq : cfg.mtu = 0) :
    runLines (.inter, cfg) (enumF i (if m ≠ 0 then [mtuLine m] else [])) =
      .ok (.inter, { cfg with mtu := m }) := by
  by_cases hm : m = 0
  · rw [if_neg (by simp [hm]), show enumF i ([] : List Str) = [] from rfl, runLines]
    rw [show ({ cfg with mtu := m } : Config) = cfg from by
      obtain ⟨f1, f2, f3, f4, f5, f6, f7, f8, f9, f10, f11, f12, f13, f14, f15, f16⟩ := cfg
      subst hm
      cases hq
      rfl]
  · rw [if_pos hm]
    exact runLines_one (processLine_mtuLine cfg i h1 h2)

theorem runLines_ifSave (cfg : Config) (i : Nat) (b : Bool) (hq : cfg.saveConfig = false) :
    runLines (.inter, cfg) (enumF i (if b then [("SaveConfig = true".data)] else [])) =
      .ok (.inter, { cfg with saveConfig := b }) := by
  cases b with
  | false =>
    rw [if_neg (by simp), show enumF i ([] : List Str) = [] from rfl, runLines]
    rw [show ({ cfg with saveConfig := false } : Config) = cfg from by
      obtain ⟨f1, f2, f3, f4, f5, f6, f7, f8, f9, f10, f11, f12, f13, f14, f15, f16⟩ := cfg
      cases hq
      rfl]
  | true =>
    rw [if_pos rfl]
    exact runLines_one (processLine_saveConfigLine cfg i)

theorem runLines_hookNil (cfg : Config) (i : Nat) (hooks : List Str) (line : Str)
    (hq : hooks = []) :
    runLines (.inter, cfg) (enumF i (if hooks ≠ [] then [line] else [])) =
      .ok (.inter, cfg) := by
  rw [hq, if_neg (by simp), show enumF i ([] : List Str) = [] from rfl, runLines]

theorem runLines_peersPhase (st : ParseState) (cfg : Config) {ps : List PeerConfig}
    (h : ∀ p ∈ ps, validPeerB p = true) (i : Nat) :
    runLines (st, cfg) (enumF i ((ps.map peerLines).flatten)) =
      .ok ((if ps.isEmpty then st else .peer), { cfg with peers := cfg.peers ++ ps }) := by
  induction ps generalizing st cfg i with
  | nil =>
    rw [show ((([] : List PeerConfig).map peerLines).flatten) = [] from rfl,
      show enumF i ([] : List Str) = [] from rfl, runLines]
    rw [show (List.isEmpty ([] : List PeerConfig)) = true from rfl, if_pos rfl]
    rw [show ({ cfg with peers := cfg.peers ++ [] } : Config) = cfg from by
      obtain ⟨f1, f2, f3, f4, f5, f6, f7, f8, f9, f10, f11, f12, f13, f14, f15, f16⟩ := cfg
      simp]
  | cons p rest ih =>
    rw [show (((p :: rest).map peerLines).flatten) =
      peerLines p ++ ((rest.map peerLines).flatten) from by simp]
    have hcomb := runLines_seq (runLines_peerBlock st cfg (h p (by simp)) i)
      (ih .peer { cfg with peers := cfg.peers ++ [p] }
        (fun x hx => h x (by simp [hx])) (i + (peerLines p).length))
    rw [hcomb]
    simp [List.append_assoc]

/-! ## Rendered lines contain no newline -/

theorem nl_not_of_nonspace {s : Str} (h : ∀ c ∈ s, ¬isSpaceChar c) : '\n' ∉ s :=
  fun hm => h '\n' hm (by decide)

theorem mem_joinStrSep {c : Char} {sep : Str} {es : List Str}
    (h : c ∈ joinStrSep sep es) : c ∈ sep ∨ ∃ e ∈ es, c ∈ e := by
  induction es with
  | nil => simp [joinStrSep] at h
  | cons e rest ih =>
    cases rest with
    | nil =>
      right
      exact ⟨e, by simp, h⟩
    | cons r rs =>
      simp only [joinStrSep, List.mem_append] at h
      rcases h with (h | h) | h
      · exact Or.inr ⟨e, by simp, h⟩
      · exact Or.inl h
      · rcases ih h with h | ⟨e2, he2, hc⟩
        · exact Or.inl h
        · exact Or.inr ⟨e2, by simp [he2], hc⟩

theorem nl_not_mem_addrLine (a : IPNet) : '\n' ∉ addrLine a := by
  rw [addrLine]
  intro hm
  rcases List.mem_append.1 hm with hm | hm
  · revert hm
    decide
  · exact nl_not_of_nonspace
      (fun c hc => (mem_digitsDotSlash_facts c (ipNetStr_mem a c hc)).1) hm

theorem nl_not_mem_dnsLine (d : IPv4) : '\n' ∉ dnsLine d := by
  rw [dnsLine]
  intro hm
  rcases List.mem_append.1 hm with hm | hm
  · revert hm
    decide
  · exact nl_not_of_nonspace
      (fun c hc => (mem_digitsDot_facts c (ipv4Str_mem d c hc)).1) hm

theorem nl_not_mem_keyValue {k : WgKey} {lit : Str} (hlit : '\n' ∉ lit)
    (hm : '\n' ∈ lit ++ serializeKey k) : False := by
  rcases List.mem_append.1 hm with hm | hm
  · exact hlit hm
  · exact nl_not_of_nonspace
      (fun c hc => (mem_b64chars_facts c (serializeKey_mem k c hc)).1) hm

theorem nl_not_mem_intValue {i : Int} {lit : Str} (hlit : '\n' ∉ lit)
    (hm : '\n' ∈ lit ++ intToChars i) : False := by
  rcases List.mem_append.1 hm with hm | hm
  · exact hlit hm
  · exact nl_not_of_nonspace
      (fun c hc => (mem_intchars_facts c (intToChars_mem i c hc)).1) hm

theorem nl_not_mem_allowedLine (l : List IPNet) : '\n' ∉ allowedLine l := by
  rw [allowedLine]
  intro hm
  rcases List.mem_append.1 hm with hm | hm
  · revert hm
    decide
  · rcases mem_joinStrSep hm with hm | ⟨e, he, hc⟩
    · revert hm
      decide
    · obtain ⟨y, hy, rfl⟩ := List.mem_map.1 he
      exact (mem_digitsDotSlash_facts '\n' (ipNetStr_mem y '\n' hc)).1 (by decide)

theorem nl_not_mem_endpointLine (a : UDPAddr) : '\n' ∉ endpointLine a := by
  rw [endpointLine]
  intro hm
  rcases List.mem_append.1 hm with hm | hm
  · revert hm
    decide
  · exact nl_not_of_nonspace
      (fun c hc => (mem_digitsDotColon_facts c (udpAddrStr_mem a c hc)).1) hm

theorem nl_not_mem_optLines {f : α → Str} {o : Option α} {l : Str}
    (hf : ∀ x, '\n' ∉ f x) (hm : l ∈ optLines f o) : '\n' ∉ l := by
  cases o with
  | none => simp [optLines] at hm
  | some x =>
    simp only [optLines, List.mem_singleton] at hm
    subst hm
    exact hf x

theorem nl_not_mem_pubKeyLine (k : WgKey) : '\n' ∉ pubKeyLine k :=
  fun hm => nl_not_mem_keyValue (by decide) hm

theorem nl_not_mem_presharedLine (k : WgKey) : '\n' ∉ presharedLine k :=
  fun hm => nl_not_mem_keyValue (by decide) hm

theorem nl_not_mem_privateKeyLine (k : WgKey) : '\n' ∉ privateKeyLine k :=
  fun hm => nl_not_mem_keyValue (by decide) hm

theorem nl_not_mem_keepaliveLine (d : Int) : '\n' ∉ keepaliveLine d :=
  fun hm => nl_not_mem_intValue (by decide) hm

theorem nl_not_mem_listenPortLine (p : Int) : '\n' ∉ listenPortLine p :=
  fun hm => nl_not_mem_intValue (by decide) hm

theorem nl_not_mem_mtuLine (m : Int) : '\n' ∉ mtuLine m :=
  fun hm => nl_not_mem_intValue (by decide) hm

theorem nl_not_mem_tableLine (t : Int) : '\n' ∉ tableLine t :=
  fun hm => nl_not_mem_intValue (by decide) hm

theorem nl_not_mem_peerLines (p : PeerConfig) : ∀ l ∈ peerLines p, '\n' ∉ l := by
  intro l hl
  rw [peerLines] at hl
  simp only [List.mem_append, List.mem_cons, List.mem_singleton] at hl
  rcases hl with (((h | h | h | h | h) | h) | h) | h
  · subst h
    simp
  · subst h
    decide
  · subst h
    exact nl_not_mem_pubKeyLine _
  · subst h
    exact nl_not_mem_allowedLine _
  · simp at h
  · exact nl_not_mem_optLines nl_not_mem_presharedLine h
  · exact nl_not_mem_optLines nl_not_mem_keepaliveLine h
  · exact nl_not_mem_optLines nl_not_mem_endpointLine h

theorem nl_not_mem_configRestLines (c : Config) (pk : WgKey)
    (h1 : c.preUp = []) (h2 : c.postUp = []) (h3 : c.preDown = []) (h4 : c.postDown = []) :
    ∀ l ∈ configRestLines c pk, '\n' ∉ l := by
  intro l hl
  rw [configRestLines, h1, h2, h3, h4] at hl
  simp only [ne_eq, not_true_eq_false, if_false, List.append_nil, List.nil_append,
    List.mem_append, List.mem_cons, List.mem_singleton] at hl
  rcases hl with ((((((h | h) | h) | h) | h) | h) | h) | h
  · obtain ⟨a, ha, rfl⟩ := List.mem_map.1 h
    exact nl_not_mem_addrLine a
  · obtain ⟨d, hd, rfl⟩ := List.mem_map.1 h
    exact nl_not_mem_dnsLine d
  · rcases h with h | h
    · subst h
      exact nl_not_mem_privateKeyLine pk
    · simp at h
  · exact nl_not_mem_optLines nl_not_mem_listenPortLine h
  · split at h
    · simp only [List.mem_singleton] at h
      subst h
      exact nl_not_mem_mtuLine _
    · simp at h
  · exact nl_not_mem_optLines nl_not_mem_tableLine h
  · split at h
    · simp only [List.mem_singleton] at h
      subst h
      decide
    · simp at h
  · obtain ⟨ls, hls, hml⟩ := List.mem_flatten.1 h
    obtain ⟨q, hq, rfl⟩ := List.mem_map.1 hls
    exact nl_not_mem_peerLines q l hml

/-! ## Splitting the rendered text back into lines -/

theorem splitChar_nl_build (s0 : Str) (ls : List Str) (h0 : '\n' ∉ s0)
    (h : ∀ l ∈ ls, '\n' ∉ l) :
    splitChar '\n' (s0 ++ nlConcat ls ++ ('\n' :: [])) = s0 :: (ls ++ [[]]) := by
  induction ls generalizing s0 with
  | nil =>
    rw [nlConcat_nil, List.append_nil, splitChar_append_cons h0]
    rfl
  | cons l rest ih =>
    rw [nlConcat_cons]
    rw [show s0 ++ ('\n' :: (l ++ nlConcat rest)) ++ ('\n' :: []) =
      s0 ++ '\n' :: (l ++ nlConcat rest ++ ('\n' :: [])) by simp [List.append_assoc]]
    rw [splitChar_append_cons h0]
    rw [ih l (h l (by simp)) (fun x hx => h x (by simp [hx]))]
    rfl

theorem runLines_blank1 (acc : ParseState × Config) (i : Nat) :
    runLines acc (enumF i [[]]) = .ok acc := by
  rw [show enumF i [([] : Str)] = [(i, ([] : Str))] from rfl,
    runLines_step _ (processLine_blank acc i)]
  rfl

theorem enumF_cons (i : Nat) (l : Str) (ls : List Str) :
    enumF i (l :: ls) = (i, l) :: enumF (i + 1) ls := rfl

/-- Decoding the full rendered text of a well-formed config recovers it. -/
theorem unmarshal_render_fields (pk : WgKey) (clp : Option Int) (cps : List PeerConfig)
    (cad : List IPNet) (cdn : List IPv4) (cmt : Int) (tb : Int) (csv : Bool)
    (hpkB : validKeyB pk = true)
    (hoLP : ∀ p, clp = some p → int64Range p = true)
    (hA : ∀ x ∈ cad, validIPNetB x = true)
    (hD : ∀ x ∈ cdn, validIPv4B x = true)
    (hm1 : -(2 ^ 63) ≤ cmt) (hm2 : cmt ≤ 2 ^ 63 - 1)
    (ht1 : -(2 ^ 63) ≤ tb) (ht2 : tb ≤ 2 ^ 63 - 1)
    (hPS : ∀ p ∈ cps, validPeerB p = true) :
    Config.unmarshalText (renderConfig
      ⟨some pk, clp, cps, cad, cdn, cmt, some tb, [], [], [], [], 0, 0, [], csv, []⟩ pk) =
      .ok ⟨some pk, clp, cps, cad, cdn, cmt, some tb, [], [], [], [], 0, 0, [], csv, []⟩ := by
  rw [renderConfig_eq _ pk rfl rfl rfl rfl, Config.unmarshalText,
    splitChar_nl_build _ _ (by decide) (nl_not_mem_configRestLines _ pk rfl rfl rfl rfl),
    enumF_cons, runLines_step _ (processLine_interface_header _ _ _),
    show (0 + 1) = 1 from rfl]
  have hrun : runLines (.inter, newConfig)
      (enumF 1 (configRestLines
        ⟨some pk, clp, cps, cad, cdn, cmt, some tb, [], [], [], [], 0, 0, [], csv, []⟩ pk
        ++ [[]])) =
      .ok ((if cps.isEmpty then ParseState.inter else ParseState.peer),
        ⟨some pk, clp, cps, cad, cdn, cmt, some tb, [], [], [], [], 0, 0, [], csv, []⟩) := by
    exact runLines_seq
      (runLines_seq
        (runLines_seq
          (runLines_seq
            (runLines_seq
              (runLines_seq
                (runLines_seq
                  (runLines_seq
                    (runLines_seq
                      (runLines_seq
                        (runLines_seq
                          (runLines_seq
                            (runLines_addresses newConfig hA _)
                            (runLines_dnss _ hD _))
                          (runLines_one (processLine_privateKeyLine _ _ hpkB)))
                        (runLines_optListenPort _ _ clp hoLP rfl))
                      (runLines_ifMtu _ _ cmt hm1 hm2 rfl))
                    (runLines_one (processLine_tableLine _ _ ht1 ht2)))
                  (runLines_hookNil _ _ _ _ rfl))
                (runLines_hookNil _ _ _ _ rfl))
              (runLines_hookNil _ _ _ _ rfl))
            (runLines_hookNil _ _ _ _ rfl))
          (runLines_ifSave _ _ csv rfl))
        (runLines_peersPhase .inter _ hPS _))
      (runLines_blank1 _ _)
  rw [hrun]

/-! ## Error propagation and duplicate-preshared helpers -/

theorem runLines_err {acc : ParseState × Config} {nl : Nat × Str} {e : DecodeErr}
    (rest : List (Nat × Str)) (h : processLine acc nl = .error e) :
    runLines acc (nl :: rest) = .error e := by
  simp only [runLines, h]

theorem updateLastPeer_concat_err (cfg : Config) (P : List PeerConfig) (q : PeerConfig)
    (f : PeerConfig → Except Str PeerConfig) (hp : cfg.peers = P ++ [q]) (e : Str)
    (hf : f q = .error e) : updateLastPeer cfg f = .error e := by
  rw [updateLastPeer, hp]
  simp only [List.getLast?_concat, hf]

theorem parsePeerLine_presharedDup (q : PeerConfig) {k k0 : WgKey} (h : validKeyB k = true)
    (hq : q.presharedKey = some k0) :
    parsePeerLine q ("PresharedKey".data) (serializeKey k) =
      .error ("preshared key already defined".data) := by
  rw [parsePeerLine, if_neg (by decide), if_pos rfl, ParseKey_serializeKey h]
  dsimp only
  rw [if_pos (by simp [hq])]

theorem processLine_presharedDup (cfg : Config) (P : List PeerConfig) (q : PeerConfig)
    (hp : cfg.peers = P ++ [q]) (no : Nat) {k k0 : WgKey} (h : validKeyB k = true)
    (hq : q.presharedKey = some k0) :
    processLine (.peer, cfg) (no, presharedLine k) =
      .error (.lineErr (no + 1) ("preshared key already defined".data)) := by
  rw [show presharedLine k = ("PresharedKey".data) ++ ' ' :: '=' :: ' ' :: serializeKey k
    from rfl]
  rw [processLine_kv .peer cfg no _ _ (by decide) (by decide) (by decide) (by decide)
    (by decide)]
  dsimp only
  rw [updateLastPeer_concat_err cfg P q _ hp _
    (by rw [trimSpace_serializeKey]; exact parsePeerLine_presharedDup q h hq)]

/-! ## Extractor step lemmas -/

theorem base64Encode_ne_nil {bs : List Nat} (h : bs ≠ []) : base64Encode bs ≠ [] := by
  match bs with
  | [] => exact absurd rfl h
  | [b1] => simp [base64Encode]
  | [b1, b2] => simp [base64Encode]
  | b1 :: b2 :: b3 :: rest => simp [base64Encode]

theorem serializeKey_ne_nil {k : WgKey} (h : validKeyB k = true) : serializeKey k ≠ [] := by
  simp only [validKeyB, Bool.and_eq_true, decide_eq_true_eq] at h
  rw [serializeKey]
  exact base64Encode_ne_nil (by intro hnil; rw [hnil] at h; simp at h)

theorem mem_of_mem_trimSpace {c : Char} {s : Str} (h : c ∈ trimSpace s) : c ∈ s := by
  have h1 : c ∈ trimRightSp s := (List.dropWhile_sublist _).subset h
  rw [trimRightSp, List.mem_reverse] at h1
  have h2 := (List.dropWhile_sublist _).subset h1
  rw [List.mem_reverse] at h2
  exact h2

theorem extractLine_commit (st : ExtractSt) (no : Nat) (k : WgKey) (e : Str)
    (hstate : st.state = .peer) (hpk : st.pubkey = serializeKey k)
    (hk : validKeyB k = true) (he : e ≠ []) (hall : ∀ c ∈ e, ¬isSpaceChar c)
    (heq : '=' ∉ e) :
    extractLine st (no, ("Endpoint".data) ++ ' ' :: '=' :: ' ' :: e) =
      .ok { st with endpoints := mapSet st.endpoints k e, pubkey := [], endpoint := [] } := by
  have htr := trimSpace_kv ("Endpoint".data) e (by decide) (by decide)
  have hkv := splitKV_kv ("Endpoint".data) e (by decide) (by decide) (by decide) (by decide)
  rw [htr, trimSpace_eq_self_of_all hall] at hkv
  have hmem : '=' ∈ ("Endpoint".data) ++ ' ' :: '=' ::
      (if trimRightSp e = [] then [] else ' ' :: trimRightSp e) := by simp
  have hni := kv_shape_ne_of_not_mem hmem (show '=' ∉ "[Interface]".data by decide)
  have hnp := kv_shape_ne_of_not_mem hmem (show '=' ∉ "[Peer]".data by decide)
  have hhd : ¬((("Endpoint".data) ++ ' ' :: '=' ::
      (if trimRightSp e = [] then [] else ' ' :: trimRightSp e)).headD ' ' = '#') := by
    rw [show (("Endpoint".data) ++ ' ' :: '=' ::
      (if trimRightSp e = [] then [] else ' ' :: trimRightSp e)).headD ' ' = 'E' from rfl]
    decide
  have hor : ¬(("Endpoint".data) ++ ' ' :: '=' ::
      (if trimRightSp e = [] then [] else ' ' :: trimRightSp e) = [] ∨
      ((("Endpoint".data) ++ ' ' :: '=' ::
        (if trimRightSp e = [] then [] else ' ' :: trimRightSp e)).headD ' ' = '#')) := by
    push_neg
    exact ⟨by simp, hhd⟩
  have hne1 : ¬(st.pubkey = [] ∨ e = []) := by
    push_neg
    exact ⟨by rw [hpk]; exact serializeKey_ne_nil hk, he⟩
  simp only [extractLine, htr, if_neg hor, if_neg hni, if_neg hnp,
    if_neg (show ¬st.state ≠ ParseState.peer by simp [hstate]), hkv]
  simp only [reduceIte]
  have h8 : (['E', 'n', 'd', 'p', 'o', 'i', 'n', 't'] : Str) ≠
      ['P', 'u', 'b', 'l', 'i', 'c', 'K', 'e', 'y'] := by decide
  rw [if_neg h8]
  dsimp only
  rw [if_neg hne1]
  rw [hpk, wgtypesParseKey_serializeKey hk]

theorem extractLine_skip (st : ExtractSt) (no : Nat) (ln : Str)
    (hstate : st.state ≠ .peer)
    (hni : trimSpace ln ≠ "[Interface]".data) (hnp : trimSpace ln ≠ "[Peer]".data) :
    extractLine st (no, ln) = .ok st := by
  simp only [extractLine]
  by_cases h0 : trimSpace ln = [] ∨ (trimSpace ln).headD ' ' = '#'
  · rw [if_pos h0]
  · rw [if_neg h0, if_neg hni, if_neg hnp, if_pos hstate]

theorem extractLine_missing_eq (st : ExtractSt) (no : Nat) (ln : Str)
    (hstate : st.state = .peer)
    (hb : trimSpace ln ≠ []) (hc : ¬(trimSpace ln).headD ' ' = '#')
    (hni : trimSpace ln ≠ "[Interface]".data) (hnp : trimSpace ln ≠ "[Peer]".data)
    (heq : '=' ∉ ln) :
    extractLine st (no, ln) = .error (.missingEq no) := by
  have hkv : splitKV (trimSpace ln) = none :=
    splitKV_none_of_not_mem (fun hm => heq (mem_of_mem_trimSpace hm))
  simp only [extractLine]
  rw [if_neg (by push_neg; exact ⟨hb, hc⟩), if_neg hni, if_neg hnp,
    if_neg (show ¬st.state ≠ ParseState.peer by simp [hstate]), hkv]

/-! ## MatchConfig fold invariant -/

theorem mem_mapSet [DecidableEq κ] {m : List (κ × β)} {k : κ} {v : β} {kv : κ × β}
    (h : kv ∈ mapSet m k v) : kv ∈ m ∨ kv = (k, v) := by
  induction m with
  | nil => simpa [mapSet] using h
  | cons p rest ih =>
    obtain ⟨k0, v0⟩ := p
    rw [mapSet] at h
    by_cases hk : k0 = k
    · rw [if_pos hk] at h
      rcases List.mem_cons.1 h with h | h
      · right
        rw [h, hk]
      · left
        exact List.mem_cons_of_mem _ h
    · rw [if_neg hk] at h
      rcases List.mem_cons.1 h with h | h
      · left
        exact h ▸ List.mem_cons_self _ _
      · rcases ih h with h | h
        · left
          exact List.mem_cons_of_mem _ h
        · right
          exact h

theorem MatchConfig_eq_fold (rmatch : Str → Str → Option Bool) (files : List (Str × Str))
    (pattern : Str) :
    MatchConfig rmatch files pattern =
      files.foldlM (matchStep rmatch (anchorPattern pattern)) [] := rfl

theorem matchStep_fold_sound (rmatch : Str → Str → Option Bool) (p : Str) :
    ∀ (files : List (Str × Str)) (acc out : List (Str × Config)),
      List.foldlM (matchStep rmatch p) acc files = some out →
      ∀ kv ∈ out, kv ∈ acc ∨ ∃ name content, (name, content) ∈ files ∧
        6 ≤ name.length ∧ lastIndex name (".conf".data) = (name.length : Int) - 5 ∧
        kv.1 = name.take (name.length - 5) ∧ rmatch p kv.1 = some true ∧
        Config.unmarshalText content = .ok kv.2 := by
  intro files
  induction files with
  | nil =>
    intro acc out h kv hkv
    left
    simp only [List.foldlM_nil] at h
    cases h
    exact hkv
  | cons f rest ih =>
    intro acc out h kv hkv
    rw [List.foldlM_cons] at h
    rcases hstep : matchStep rmatch p acc f with _ | acc2
    · rw [hstep] at h
      simp at h
    · rw [hstep] at h
      have hrest : List.foldlM (matchStep rmatch p) acc2 rest = some out := by
        simpa using h
      obtain ⟨name0, content0⟩ := f
      rcases ih acc2 out hrest kv hkv with hin | ⟨name, content, hmem, hrest'⟩
      · rw [matchStep] at hstep
        by_cases hbad : name0.length < 6 ∨
            lastIndex name0 (".conf".data) ≠ (name0.length : Int) - 5
        · rw [if_pos hbad] at hstep
          cases hstep
          left
          exact hin
        · rw [if_neg hbad] at hstep
          push_neg at hbad
          rcases hrm : rmatch p (name0.take (name0.length - 5)) with _ | b
          · rw [hrm] at hstep
            exact Option.noConfusion hstep
          · rw [hrm] at hstep
            cases b with
            | false =>
              cases hstep
              left
              exact hin
            | true =>
              rcases hdec : Config.unmarshalText content0 with e | c
              · rw [hdec] at hstep
                exact Option.noConfusion hstep
              · rw [hdec] at hstep
                cases hstep
                rcases mem_mapSet hin with hin2 | hin2
                · left
                  exact hin2
                · right
                  refine ⟨name0, content0, List.mem_cons_self _ _, by omega, hbad.2, ?_, ?_, ?_⟩
                  · rw [hin2]
                  · rw [hin2, hrm]
                  · rw [hin2]
                    exact hdec
      · right
        exact ⟨name, content, List.mem_cons_of_mem _ hmem, hrest'⟩

theorem mem_keys_mapSet_self [DecidableEq κ] (m : List (κ × β)) (k : κ) (v : β) :
    ∃ v0, (k, v0) ∈ mapSet m k v := by
  induction m with
  | nil => exact ⟨v, by simp [mapSet]⟩
  | cons p rest ih =>
    obtain ⟨k1, v1⟩ := p
    rw [mapSet]
    by_cases hk : k1 = k
    · rw [if_pos hk]
      exact ⟨v, by rw [hk]; exact List.mem_cons_self _ _⟩
    · rw [if_neg hk]
      obtain ⟨v0, hv0⟩ := ih
      exact ⟨v0, List.mem_cons_of_mem _ hv0⟩

theorem mem_keys_mapSet [DecidableEq κ] (k : κ) (v : β) (k0 : κ) :
    ∀ (m : List (κ × β)), (∃ v0, (k0, v0) ∈ m) → ∃ v0, (k0, v0) ∈ mapSet m k v := by
  intro m
  induction m with
  | nil =>
    intro h
    obtain ⟨v0, hv0⟩ := h
    simp at hv0
  | cons p rest ih =>
    intro h
    obtain ⟨k1, v1⟩ := p
    obtain ⟨v0, hv0⟩ := h
    rw [mapSet]
    by_cases hk : k1 = k
    · rw [if_pos hk]
      rcases List.mem_cons.1 hv0 with h1 | h1
      · exact ⟨v, by rw [show k0 = k1 from congrArg Prod.fst h1]; exact List.mem_cons_self _ _⟩
      · exact ⟨v0, List.mem_cons_of_mem _ h1⟩
    · rw [if_neg hk]
      rcases List.mem_cons.1 hv0 with h1 | h1
      · exact ⟨v0, by rw [h1]; exact List.mem_cons_self _ _⟩
      · obtain ⟨w, hw⟩ := ih ⟨v0, h1⟩
        exact ⟨w, List.mem_cons_of_mem _ hw⟩

/-- One successful MatchConfig fold step never loses a key of the accumulator. -/
theorem matchStep_keys (rmatch : Str → Str → Option Bool) (p : Str)
    (acc acc2 : List (Str × Config)) (f : Str × Str)
    (hstep : matchStep rmatch p acc f = some acc2) (k0 : Str)
    (h : ∃ v, (k0, v) ∈ acc) : ∃ v, (k0, v) ∈ acc2 := by
  obtain ⟨name0, content0⟩ := f
  rw [matchStep] at hstep
  by_cases hbad : name0.length < 6 ∨
      lastIndex name0 (".conf".data) ≠ (name0.length : Int) - 5
  · rw [if_pos hbad] at hstep
    cases hstep
    exact h
  · rw [if_neg hbad] at hstep
    rcases hrm : rmatch p (name0.take (name0.length - 5)) with _ | b
    · rw [hrm] at hstep
      exact Option.noConfusion hstep
    · rw [hrm] at hstep
      cases b with
      | false =>
        cases hstep
        exact h
      | true =>
        rcases hdec : Config.unmarshalText content0 with e | c
        · rw [hdec] at hstep
          exact Option.noConfusion hstep
        · rw [hdec] at hstep
          cases hstep
          exact mem_keys_mapSet _ _ k0 acc h

theorem matchStep_fold_keys_mono (rmatch : Str → Str → Option Bool) (p : Str) :
    ∀ (files : List (Str × Str)) (acc out : List (Str × Config)),
      List.foldlM (matchStep rmatch p) acc files = some out →
      ∀ k0, (∃ v, (k0, v) ∈ acc) → ∃ v, (k0, v) ∈ out := by
  intro files
  induction files with
  | nil =>
    intro acc out h k0 hk
    simp only [List.foldlM_nil] at h
    cases h
    exact hk
  | cons f rest ih =>
    intro acc out h k0 hk
    rw [List.foldlM_cons] at h
    rcases hstep : matchStep rmatch p acc f with _ | acc2
    · rw [hstep] at h
      simp at h
    · rw [hstep] at h
      exact ih acc2 out (by simpa using h) k0 (matchStep_keys rmatch p acc acc2 f hstep k0 hk)

/-- Completeness of the MatchConfig fold: every eligible file of the listing
whose base name matches and whose content decodes contributes its key to the
result. -/
theorem matchStep_fold_complete (rmatch : Str → Str → Option Bool) (p : Str) :
    ∀ (files : List (Str × Str)) (acc out : List (Str × Config)),
      List.foldlM (matchStep rmatch p) acc files = some out →
      ∀ (name content : Str) (c : Config), (name, content) ∈ files →
        6 ≤ name.length → lastIndex name (".conf".data) = (name.length : Int) - 5 →
        rmatch p (name.take (name.length - 5)) = some true →
        Config.unmarshalText content = .ok c →
        ∃ c2, (name.take (name.length - 5), c2) ∈ out := by
  intro files
  induction files with
  | nil =>
    intro acc out h name content c hmem
    simp at hmem
  | cons f rest ih =>
    intro acc out h name content c hmem hlen hconf hrm hdec
    rw [List.foldlM_cons] at h
    rcases hstep : matchStep rmatch p acc f with _ | acc2
    · rw [hstep] at h
      simp at h
    · rw [hstep] at h
      have hrest : List.foldlM (matchStep rmatch p) acc2 rest = some out := by
        simpa using h
      rcases List.mem_cons.1 hmem with hf | hf
      · subst hf
        rw [matchStep] at hstep
        dsimp only at hstep
        rw [if_neg (by push_neg; exact ⟨by omega, hconf⟩)] at hstep
        rw [hrm, hdec] at hstep
        cases hstep
        exact matchStep_fold_keys_mono rmatch p rest _ out hrest _
          (mem_keys_mapSet_self acc _ c)
      · exact ih acc2 out hrest name content c hf hlen hconf hrm hdec

/-! ## Claim theorems -/

/-- C1: the three routing-table states do not stay distinguishable.  `Table = off`
decodes to the disabled state (nil) and `Table = 42` to explicit 42, but an input
with no Table line decodes to the pointer-to-zero default — exactly what
`Table = 0` decodes to — and a decode→encode→decode cycle maps the disabled
state onto that default state (the nil pointer renders as no Table line, which
re-decodes to newConfig's fresh zero pointer). -/
theorem c1_table_tristate_collapse :
    decodedTable tableOffText = some none ∧
    decodedTable table42Text = some (some 42) ∧
    decodedTable noTableText = some (some 0) ∧
    decodedTable noTableText = decodedTable
      (("[Interface]\nPrivateKey = AAAAAAAAAAAAAAAAAAAAAAAAAAAAAAAAAAAAAAAAAAA=\nTable = 0".data)) ∧
    cycledTable tableOffText = some (some 0) := by
  refine ⟨?_, ?_, ?_, ?_, ?_⟩ <;> decide

/-- C4: ParseKey performs no length validation: a base64 string decoding to 3
bytes is zero-padded into a full key and accepted, and one decoding to 36 bytes
is silently truncated to 32 and accepted — both yield the all-zero key with no
error, contradicting the claimed decoded-length check. -/
theorem c4_parsekey_accepts_wrong_length :
    (base64Decode (("AAAA".data))).map List.length = some 3 ∧
    ParseKey (("AAAA".data)) = .ok zeroKey ∧
    (base64Decode (("AAAAAAAAAAAAAAAAAAAAAAAAAAAAAAAAAAAAAAAAAAAAAAAA".data))).map
      List.length = some 36 ∧
    ParseKey (("AAAAAAAAAAAAAAAAAAAAAAAAAAAAAAAAAAAAAAAAAAAAAAAA".data)) = .ok zeroKey := by
  refine ⟨?_, ?_, ?_, ?_⟩ <;> rfl

/-- C5: the missing-'=' syntax error carries the 0-based loop index, not the
claimed 1-based line number: on inputs whose second physical line (1-based line
2) lacks '=', both the decoder and the endpoint extractor report line 1, while
the decoder's neighbouring error paths (here an unknown directive on the same
physical line) report line 2. -/
theorem c5_missing_eq_zero_based :
    Config.unmarshalText (("[Interface]\nBadLine".data)) = .error (.missingEq 1) ∧
    GetUnresolvedEndpoints (("[Peer]\nBadLine".data)) = .error (.missingEq 1) ∧
    Config.unmarshalText (("[Interface]\nFoo = 1".data)) =
      .error (.lineErr 2 (("unknown directive ".data) ++ ("Foo".data))) := by
  refine ⟨?_, ?_, ?_⟩ <;> rfl

/-- C3: MarshalText is not total — it fails exactly when the private key is
absent (the template's wgKey helper dereferences the nil pointer, and
text/template converts the recovered panic into an Execute error); with any key
present it always returns text. -/
theorem c3_marshal_errors_iff_nil_key (c : Config) :
    (∃ e, Config.marshalText c = .error e) ↔ c.privateKey = none := by
  constructor
  · rintro ⟨e, he⟩
    cases h : c.privateKey with
    | none => rfl
    | some k =>
      rw [Config.marshalText, h] at he
      exact Except.noConfusion he
  · intro h
    refine ⟨("error calling wgKey: runtime error: invalid memory address or nil pointer dereference".data), ?_⟩
    rw [Config.marshalText, h]

/-- C3 witness: the default config (nil private key) instantiates the
equivalence. -/
theorem c3_marshal_errors_iff_nil_key_witness :
    (∃ e, Config.marshalText {} = .error e) ↔ ({} : Config).privateKey = none :=
  c3_marshal_errors_iff_nil_key {}

/-- C3 counterexample to the claimed totality: encoding the default in-memory
config (absent private key) returns an error, not text with an empty field. -/
theorem c3_marshal_nil_key_errors :
    Config.marshalText {} = .error
      (("error calling wgKey: runtime error: invalid memory address or nil pointer dereference".data)) :=
  rfl

/-- C2: the round-trip law holds on the fragment of valid configs whose
externally-consumed fields are unpopulated: private key present and valid,
table present, hook-script lists, AddressLabel and WgBin empty, RouteProtocol
and RouteMetric zero, every peer with at least one allowed IP and whole-second
keepalives.  On this fragment Decode(Encode(c)) returns exactly c, all list
orders preserved byte for byte. -/
theorem c2_decode_encode_roundtrip (c : Config) (hv : validConfigB c = true) :
    decodeEncode c = .ok c := by
  obtain ⟨cpk, clp, cps, cad, cdn, cmt, ctb, cpu, cpo, cpd, cpdo, crp, crm, cal, csv, cwg⟩ := c
  rw [validConfigB] at hv
  simp only [Bool.and_eq_true] at hv
  obtain ⟨⟨⟨⟨⟨⟨⟨⟨⟨⟨⟨⟨⟨⟨hpkB, hlpB⟩, haB⟩, hdB⟩, hmB⟩, htB⟩, hpuB⟩, hpoB⟩, hpdB⟩, hpdoB⟩,
    hrpB⟩, hrmB⟩, halB⟩, hwgB⟩, hpsB⟩ := hv
  cases cpk with
  | none => exact Bool.noConfusion hpkB
  | some pk =>
  cases ctb with
  | none => exact Bool.noConfusion htB
  | some tb =>
  replace hpkB : validKeyB pk = true := hpkB
  replace htB : int64Range tb = true := htB
  have hA : ∀ x ∈ cad, validIPNetB x = true := by simpa using haB
  have hD : ∀ x ∈ cdn, validIPv4B x = true := by simpa using hdB
  have hPS : ∀ p ∈ cps, validPeerB p = true := by simpa using hpsB
  have hmB' : -(2 ^ 63) ≤ cmt ∧ cmt ≤ 2 ^ 63 - 1 := by
    simpa [int64Range, Bool.and_eq_true, decide_eq_true_eq] using hmB
  have htB' : -(2 ^ 63) ≤ tb ∧ tb ≤ 2 ^ 63 - 1 := by
    simpa [int64Range, Bool.and_eq_true, decide_eq_true_eq] using htB
  have hoLP : ∀ p, clp = some p → int64Range p = true := by
    intro p hp
    subst hp
    exact hlpB
  have hpu : cpu = [] := by simpa using hpuB
  have hpo : cpo = [] := by simpa using hpoB
  have hpd : cpd = [] := by simpa using hpdB
  have hpdo : cpdo = [] := by simpa using hpdoB
  have hrp : crp = 0 := by simpa using hrpB
  have hrm : crm = 0 := by simpa using hrmB
  have hal : cal = [] := by simpa using halB
  have hwg : cwg = [] := by simpa using hwgB
  subst hpu hpo hpd hpdo hrp hrm hal hwg
  exact unmarshal_render_fields pk clp cps cad cdn cmt tb csv hpkB hoLP hA hD hmB'.1 hmB'.2
    htB'.1 htB'.2 hPS

/-- C2 witness: the amended round-trip at a config populating every modelled
field (two addresses, two dns servers, mtu, table, save flag, two peers with
preshared key, endpoint and keepalive). -/
theorem c2_decode_encode_roundtrip_witness :
    validConfigB rtSample = true ∧ decodeEncode rtSample = .ok rtSample :=
  ⟨by decide, c2_decode_encode_roundtrip rtSample (by decide)⟩

/-- C2 counterexample to the unrestricted claim: a config with a populated
PreUp hook and WgBin path round-trips to a different value (the template
renders the hook list as a bracketed Go slice and never renders WgBin), and a
config whose peer has no allowed IPs fails to re-decode (its empty
`AllowedIPs = ` value is rejected). -/
theorem c2_roundtrip_fails_in_general :
    decodeEncode rtCexA ≠ .ok rtCexA ∧ decodeEncode rtCexB ≠ .ok rtCexB := by
  refine ⟨?_, ?_⟩ <;> decide

/-- C6: a peer block with two PresharedKey lines always fails decode with the
duplicate-preshared error (regardless of whether the two keys are equal, since
the second line errors as soon as a key is already present), while a single
PresharedKey line with valid base64 succeeds and sets the key. -/
theorem c6_duplicate_preshared (k1 k2 : WgKey)
    (h1 : validKeyB k1 = true) (h2 : validKeyB k2 = true) :
    Config.unmarshalText
        ("[Peer]".data ++ nlConcat [presharedLine k1, presharedLine k2] ++ ('\n' :: [])) =
      .error (.lineErr 3 ("preshared key already defined".data)) ∧
    Config.unmarshalText ("[Peer]".data ++ nlConcat [presharedLine k1] ++ ('\n' :: [])) =
      .ok { newConfig with peers := [{ presharedKey := some k1 }] } := by
  have hnl2 : ∀ l ∈ [presharedLine k1, presharedLine k2], '\n' ∉ l := by
    intro l hl
    rcases List.mem_cons.1 hl with h | h
    · subst h
      exact nl_not_mem_presharedLine k1
    · rcases List.mem_cons.1 h with h | h
      · subst h
        exact nl_not_mem_presharedLine k2
      · simp at h
  have hnl1 : ∀ l ∈ [presharedLine k1], '\n' ∉ l := by
    intro l hl
    rcases List.mem_cons.1 hl with h | h
    · subst h
      exact nl_not_mem_presharedLine k1
    · simp at h
  constructor
  · rw [Config.unmarshalText, splitChar_nl_build _ _ (by decide) hnl2]
    rw [show enumF 0 (("[Peer]".data) :: ([presharedLine k1, presharedLine k2] ++ [[]])) =
      (0, ("[Peer]".data)) :: (1, presharedLine k1) :: (2, presharedLine k2) ::
        (3, ([] : Str)) :: [] from rfl]
    rw [runLines_step _ (processLine_peer_header .unknown newConfig 0)]
    rw [runLines_step _ (processLine_presharedLine _ [] {} rfl 1 h1 rfl)]
    rw [runLines_err _ (processLine_presharedDup _ [] _ rfl 2 h2 rfl)]
  · rw [Config.unmarshalText, splitChar_nl_build _ _ (by decide) hnl1]
    rw [show enumF 0 (("[Peer]".data) :: ([presharedLine k1] ++ [[]])) =
      (0, ("[Peer]".data)) :: (1, presharedLine k1) :: (2, ([] : Str)) :: [] from rfl]
    rw [runLines_step _ (processLine_peer_header .unknown newConfig 0)]
    rw [runLines_step _ (processLine_presharedLine _ [] {} rfl 1 h1 rfl)]
    rw [runLines_step _ (processLine_blank _ 2)]
    rfl

/-- C6 witness: both parts at the all-zero key. -/
theorem c6_duplicate_preshared_witness :
    validKeyB zeroKey = true ∧
    (Config.unmarshalText
        ("[Peer]".data ++ nlConcat [presharedLine zeroKey, presharedLine zeroKey] ++
          ('\n' :: [])) =
        .error (.lineErr 3 ("preshared key already defined".data)) ∧
      Config.unmarshalText ("[Peer]".data ++ nlConcat [presharedLine zeroKey] ++ ('\n' :: [])) =
        .ok { newConfig with peers := [{ presharedKey := some zeroKey }] }) :=
  ⟨by decide, c6_duplicate_preshared zeroKey zeroKey (by decide) (by decide)⟩

/-- C7: on the scenario of the claim (two peer blocks, only the first with both
a public key and an endpoint) extraction returns exactly the single-entry
mapping, and in general, inside a peer block, an Endpoint line that makes both
transient fields non-empty commits the (parsed public key, endpoint string)
pair into the mapping and resets both transients. -/
theorem c7_extract_scenario_commit (st : ExtractSt) (no : Nat) (k : WgKey) (e : Str)
    (hstate : st.state = .peer) (hpk : st.pubkey = serializeKey k)
    (hk : validKeyB k = true) (he : e ≠ []) (hall : ∀ c ∈ e, ¬isSpaceChar c)
    (heq : '=' ∉ e) :
    GetUnresolvedEndpoints extractScenarioText = .ok [(zeroKey, ("host1:51820".data))] ∧
    extractLine st (no, ("Endpoint".data) ++ ' ' :: '=' :: ' ' :: e) =
      .ok { st with endpoints := mapSet st.endpoints k e, pubkey := [], endpoint := [] } :=
  ⟨by decide, extractLine_commit st no k e hstate hpk hk he hall heq⟩

/-- C7 witness: the commit step at the all-zero key with endpoint string h:1,
from a peer-section state whose transient pubkey is already set. -/
theorem c7_extract_scenario_commit_witness :
    st0.pubkey = serializeKey zeroKey ∧
    (GetUnresolvedEndpoints extractScenarioText = .ok [(zeroKey, ("host1:51820".data))] ∧
      extractLine st0 (7, ("Endpoint".data) ++ ' ' :: '=' :: ' ' :: ("h:1".data)) =
        .ok { st0 with endpoints := mapSet st0.endpoints zeroKey (("h:1".data)),
                       pubkey := [], endpoint := [] }) :=
  ⟨rfl, c7_extract_scenario_commit st0 7 zeroKey (("h:1".data)) rfl rfl (by decide) (by decide)
    (by decide) (by decide)⟩

/-- C8: a key-value line keeps everything after the first '=' as the value —
the line is split on every '=' and the tail rejoined with '=' — with
whitespace trimmed off both the key and the value; in particular a base64
value's trailing '=' padding survives intact. -/
theorem c8_value_keeps_inner_eq (k v : Str) (hk : '=' ∉ k) :
    splitKV (k ++ '=' :: v) = some (trimSpace k, trimSpace v) ∧
    splitKV (("PresharedKey = dGVzdA==".data)) =
      some (("PresharedKey".data), ("dGVzdA==".data)) := by
  constructor
  · rw [splitKV, splitChar_append_cons hk]
    rcases hsp : splitChar '=' v with _ | ⟨p2, ps2⟩
    · exact absurd hsp (splitChar_ne_nil _ _)
    · dsimp only
      rw [show joinChar '=' (p2 :: ps2) = v from by rw [← hsp, joinChar_splitChar]]
  · decide

/-- C8 witness: a key-value line whose value contains '=' and ends in '='
padding, with surrounding whitespace. -/
theorem c8_value_keeps_inner_eq_witness :
    '=' ∉ ("Key".data) ∧
    (splitKV (("Key".data) ++ '=' :: (" b=64== ".data)) =
        some (trimSpace ("Key".data), trimSpace ((" b=64== ".data))) ∧
      splitKV (("PresharedKey = dGVzdA==".data)) =
        some (("PresharedKey".data), ("dGVzdA==".data))) :=
  ⟨by decide, c8_value_keeps_inner_eq _ _ (by decide)⟩

/-- C9: MatchConfig considers only provider file names of length at least 6
ending in .conf.  Whenever it returns a mapping, every key of it is such a
name with the trailing .conf removed, whose base name matched the implicitly
anchored pattern and whose content decoded; and conversely every eligible file
of the listing whose base name matches and whose content decodes has its base
name included as a key of the mapping. -/
theorem c9_matchconfig_keys (rmatch : Str → Str → Option Bool) (files : List (Str × Str))
    (pattern : Str) (out : List (Str × Config)) (name content : Str) (c : Config)
    (h : MatchConfig rmatch files pattern = some out) :
    (∀ kv ∈ out, ∃ nm ct, (nm, ct) ∈ files ∧ 6 ≤ nm.length ∧
      lastIndex nm (".conf".data) = (nm.length : Int) - 5 ∧
      kv.1 = nm.take (nm.length - 5) ∧
      rmatch (anchorPattern pattern) kv.1 = some true ∧
      Config.unmarshalText ct = .ok kv.2) ∧
    ((name, content) ∈ files → 6 ≤ name.length →
      lastIndex name (".conf".data) = (name.length : Int) - 5 →
      rmatch (anchorPattern pattern) (name.take (name.length - 5)) = some true →
      Config.unmarshalText content = .ok c →
      ∃ c2, (name.take (name.length - 5), c2) ∈ out) := by
  constructor
  · intro kv hkv
    have hsound := matchStep_fold_sound rmatch (anchorPattern pattern) files [] out
      (by rw [← MatchConfig_eq_fold]; exact h) kv hkv
    rcases hsound with hin | hw
    · simp at hin
    · exact hw
  · intro hmem hlen hconf hrm hdec
    exact matchStep_fold_complete rmatch (anchorPattern pattern) files [] out
      (by rw [← MatchConfig_eq_fold]; exact h) name content c hmem hlen hconf hrm hdec

/-- C9 witness: a listing with two matching .conf files, one name too short and
one of them second in the listing, under a collaborator matching the base names
wg0 and wg1; the inclusion direction is instantiated at the second matching
file wg1.conf. -/
theorem c9_matchconfig_keys_witness :
    MatchConfig rmEx c9Files ("wg.".data) =
      some [(("wg0".data), newConfig), (("wg1".data), newConfig)] ∧
    ((∀ kv ∈ [(("wg0".data), newConfig), (("wg1".data), newConfig)],
        ∃ nm ct, (nm, ct) ∈ c9Files ∧ 6 ≤ nm.length ∧
        lastIndex nm (".conf".data) = (nm.length : Int) - 5 ∧
        kv.1 = nm.take (nm.length - 5) ∧
        rmEx (anchorPattern ("wg.".data)) kv.1 = some true ∧
        Config.unmarshalText ct = .ok kv.2) ∧
      ((("wg1.conf".data), ([] : Str)) ∈ c9Files → 6 ≤ ("wg1.conf".data).length →
        lastIndex ("wg1.conf".data) (".conf".data) = (("wg1.conf".data).length : Int) - 5 →
        rmEx (anchorPattern ("wg.".data))
          (("wg1.conf".data).take (("wg1.conf".data).length - 5)) = some true →
        Config.unmarshalText [] = .ok newConfig →
        ∃ c2, (("wg1.conf".data).take (("wg1.conf".data).length - 5), c2) ∈
          [(("wg0".data), newConfig), (("wg1".data), newConfig)])) :=
  ⟨by decide,
    c9_matchconfig_keys rmEx c9Files ("wg.".data)
      [(("wg0".data), newConfig), (("wg1".data), newConfig)] (("wg1.conf".data)) [] newConfig
      (by decide)⟩

/-- C10: the extractor silently ignores every non-header line outside a peer
section (whatever its shape, Interface fields and '='-less lines included),
while a non-blank, non-comment, non-header line lacking '=' inside a peer
section aborts the extraction with the missing-'=' error at that line. -/
theorem c10_extractor_section_discipline (st st' : ExtractSt) (no no' : Nat) (ln ln' : Str)
    (hstate : st.state ≠ .peer)
    (hni : trimSpace ln ≠ "[Interface]".data) (hnp : trimSpace ln ≠ "[Peer]".data)
    (hstate' : st'.state = .peer)
    (hb : trimSpace ln' ≠ []) (hc : ¬(trimSpace ln').headD ' ' = '#')
    (hni' : trimSpace ln' ≠ "[Interface]".data) (hnp' : trimSpace ln' ≠ "[Peer]".data)
    (heq : '=' ∉ ln') :
    extractLine st (no, ln) = .ok st ∧
    extractLine st' (no', ln') = .error (.missingEq no') :=
  ⟨extractLine_skip st no ln hstate hni hnp,
   extractLine_missing_eq st' no' ln' hstate' hb hc hni' hnp' heq⟩

/-- C10 witness: an Interface field line in the unknown state is ignored, and a
'='-less line at index 5 of a peer section aborts with that index. -/
theorem c10_extractor_section_discipline_witness :
    '=' ∉ ("garbage".data) ∧
    (extractLine {} (0, ("Address = 10.0.0.1/24".data)) = .ok {} ∧
      extractLine { state := ParseState.peer } (5, ("garbage".data)) =
        .error (.missingEq 5)) :=
  ⟨by decide,
    c10_extractor_section_discipline {} { state := ParseState.peer } 0 5
      (("Address = 10.0.0.1/24".data)) (("garbage".data)) (by decide) (by decide) (by decide)
      rfl (by decide) (by decide) (by decide) (by decide) (by decide)⟩
